import Mathlib

/-!
Verification of the scrape-and-sync pipeline in `dbd_one.py` (repository
GET_DBD).  The definitions below are a shallow embedding of the Python
source: strings are modelled as `List Char`, the filesystem as a partial
map from path names to line lists, the remote spreadsheet as a list of
rows of cell strings, and the HTML document as a small DOM tree.  The Python
regex classes `\d` / `\D` are modelled by `Char.isDigit` (the inputs in
scope are ASCII digit strings), `str.strip` by trimming whitespace on both
ends, and `str.zfill` by left-padding with `'0'`.
-/

/-- Strings are modelled as lists of characters. -/
abbrev Str : Type := List Char

/-- Convert a Lean string literal into the `List Char` model. -/
def s2l (s : String) : Str := s.data

/- ===== Identifier canonicalizer (`canon_tax_id`, dbd_one.py lines 50-52) ===== -/

/-- `re.sub(r"\D", "", s)`: keep only the digit characters of `s`. -/
def digitsOf (s : Str) : Str := s.filter Char.isDigit

/-- Python `str.zfill(13)`: left-pad with `'0'` up to width 13
(a longer string is returned unchanged — `zfill` never truncates). -/
def zfill13 (s : Str) : Str := List.replicate (13 - s.length) '0' ++ s

/-- `canon_tax_id` (dbd_one.py lines 50-52): strip non-digits, empty result
stays empty, otherwise zero-pad to width 13. -/
def canon_tax_id (s : Str) : Str :=
  let t := digitsOf s
  if t = [] then [] else zfill13 t

/- ===== Work queue store (dbd_one.py lines 54-64 and 337-352) ===== -/

/-- `line.split("#", 1)[0]`: the prefix of the line before the first `'#'`. -/
def beforeHash (l : Str) : Str := l.takeWhile (fun c => c ≠ '#')

/-- Python `str.strip()`: drop whitespace from both ends. -/
def pstrip (l : Str) : Str :=
  ((l.dropWhile Char.isWhitespace).reverse.dropWhile Char.isWhitespace).reverse

/-- The identifier `remove_ids_from_txt` extracts from one queue line
(dbd_one.py lines 60-61): strip the comment and surrounding whitespace;
an empty remainder gives the empty identifier, otherwise the canonical
form of all digit characters of the remainder. -/
def lineRemoveId (line : Str) : Str :=
  let raw := pstrip (beforeHash line)
  if raw = [] then [] else canon_tax_id (digitsOf raw)

/-- The target set of `remove_ids_from_txt` (line 56):
`{canon_tax_id(t) for t in tax_ids if t}` (membership is all that is used). -/
def targetsOf (tax_ids : List Str) : List Str :=
  (tax_ids.filter (fun t => t ≠ [])).map canon_tax_id

/-- The line loop of `remove_ids_from_txt` (lines 59-63): a line is written
to the rewritten file iff its extracted identifier is empty or is not in
the target set. -/
def removeLines (targets : List Str) : List Str → List Str
  | [] => []
  | line :: rest =>
    if lineRemoveId line = [] ∨ ¬ lineRemoveId line ∈ targets then
      line :: removeLines targets rest
    else
      removeLines targets rest

/-- Filesystem model: a partial map from path names to file contents
(a file content is its list of lines). -/
def FS : Type := String → Option (List Str)

/-- `remove_ids_from_txt` (dbd_one.py lines 54-64) at the filesystem level.
A missing file returns immediately (line 55).  Otherwise the file is
rewritten through a temporary file followed by `os.replace`; the net effect
on the filesystem is that `path` now holds the filtered lines (the
temporary file does not survive the rename). -/
def remove_ids_from_txt (fs : FS) (path : String) (tax_ids : List Str) : FS :=
  match fs path with
  | none => fs
  | some lines => fun p =>
      if p = path then some (removeLines (targetsOf tax_ids) lines) else fs p

/-- Number of leading digit characters. -/
def digitPrefixLen : Str → Nat
  | [] => 0
  | c :: cs => if c.isDigit then digitPrefixLen cs + 1 else 0

/-- `re.search(r"\d{12,13}", l)`: scan positions left to right; at the first
position carrying at least 12 consecutive digits the greedy quantifier
matches 13 digits when possible, else 12. -/
def searchRun : Str → Option Str
  | [] => none
  | c :: cs =>
    let d := digitPrefixLen (c :: cs)
    if 12 ≤ d then some ((c :: cs).take (min 13 d)) else searchRun cs

/-- The identifier `read_tax_ids` extracts from one queue line
(dbd_one.py lines 342-347): strip comment and whitespace, skip empty lines,
search for the first 12-13 digit run, canonicalize it. -/
def lineLoadId (line : Str) : Option Str :=
  let l := pstrip (beforeHash line)
  if l = [] then none else (searchRun l).map canon_tax_id

/-- The dedup loop of `read_tax_ids` (lines 349-351): keep the first
occurrence of each non-empty identifier, in order. -/
def dedupFirstNE (seen : List Str) : List Str → List Str
  | [] => []
  | x :: xs =>
    if x ≠ [] ∧ ¬ x ∈ seen then x :: dedupFirstNE (x :: seen) xs
    else dedupFirstNE seen xs

/-- `read_tax_ids` (dbd_one.py lines 337-352).  The `Option` input models
file presence: a missing file yields the empty list (line 339). -/
def read_tax_ids (file : Option (List Str)) : List Str :=
  match file with
  | none => []
  | some lines => dedupFirstNE [] (lines.filterMap lineLoadId)

/- ===== Generic retry combinator (`with_retry`, dbd_one.py lines 34-47) ===== -/

/-- Attempt loop of `with_retry`: `go i n` runs attempts `i, i+1, ...` with
`n` attempts remaining.  A success returns the value of the action; a failure
with further attempts remaining backs off (a pure no-op here) and retries;
a failure on the last attempt re-raises.  Falling off the loop with zero
attempts returns the implicit Python `None`, modelled as `Except.ok none`.
The attempt index argument models the successive invocations of the
side-effecting thunk `fn`; the effect-only `on_fail` callback (invoked with
all of its exceptions swallowed) has no bearing on the result and is not
modelled. -/
def with_retry_go {ε α : Type} (fn : Nat → Except ε α) : Nat → Nat → Except ε (Option α)
  | _, 0 => Except.ok none
  | i, Nat.succ n =>
    match fn i with
    | Except.ok a => Except.ok (some a)
    | Except.error e => if n = 0 then Except.error e else with_retry_go fn (i + 1) n

/-- `with_retry(fn, tries)` (dbd_one.py lines 34-47). -/
def with_retry {ε α : Type} (fn : Nat → Except ε α) (tries : Nat) : Except ε (Option α) :=
  with_retry_go fn 0 tries

/- ===== Document extractor (dbd_one.py lines 209-267, 302-307) ===== -/

/-- DOM tree for the parsed HTML document: element nodes carry a tag name,
a class list and children; leaves are text nodes. -/
inductive HNode : Type where
  | txt (s : String)
  | el (tag : String) (classes : List String) (children : List HNode)

mutual

/-- The text fragments of the subtree of a node, in document order. -/
def HNode.texts : HNode → List String
  | HNode.txt s => [s]
  | HNode.el _ _ cs => HNode.textsList cs

/-- Text fragments of a list of sibling subtrees. -/
def HNode.textsList : List HNode → List String
  | [] => []
  | c :: cs => HNode.texts c ++ HNode.textsList cs

end

/-- BeautifulSoup `get_text(" ", strip=True)`: strip each fragment, drop the
empty ones, join by a single space. -/
def getTextSep (n : HNode) : String :=
  " ".intercalate ((n.texts.map String.trim).filter (fun s => s ≠ ""))

/-- BeautifulSoup `get_text(strip=True)`: strip each fragment, drop the
empty ones, concatenate. -/
def getTextStrip (n : HNode) : String :=
  String.join ((n.texts.map String.trim).filter (fun s => s ≠ ""))

/-- Tag test: is `n` an element with tag name `t`? -/
def isTag (t : String) (n : HNode) : Bool :=
  match n with
  | HNode.el tg _ _ => tg == t
  | HNode.txt _ => false

/-- CSS-class test (BeautifulSoup `class_=c`). -/
def hasCls (c : String) (n : HNode) : Bool :=
  match n with
  | HNode.el _ cls _ => cls.contains c
  | HNode.txt _ => false

/-- BeautifulSoup `.string`: the string of the node if it is a text node or an
element with a single child whose `.string` is defined. -/
def stringOf : HNode → Option String
  | HNode.txt s => some s
  | HNode.el _ _ [c] => stringOf c
  | HNode.el _ _ _ => none

mutual

/-- Pre-order enumeration of a subtree: each entry is the node paired with
its path (sequence of child indices) from the enumeration root. -/
def preorder (path : List Nat) : HNode → List (List Nat × HNode)
  | HNode.txt s => [(path, HNode.txt s)]
  | HNode.el tg cls cs => (path, HNode.el tg cls cs) :: preorderList path 0 cs

/-- Pre-order enumeration of sibling subtrees starting at child index `i`. -/
def preorderList (path : List Nat) (i : Nat) : List HNode → List (List Nat × HNode)
  | [] => []
  | c :: cs => preorder (path ++ [i]) c ++ preorderList path (i + 1) cs

end

/-- All strict descendants of `r` in document order, with their paths
(the BeautifulSoup `find`/`find_all`/`find_next` traversal order). -/
def descendants (r : HNode) : List (List Nat × HNode) :=
  (preorder [] r).drop 1

/-- `soup.find(pred)`: first descendant satisfying the predicate. -/
def findFirstNode (p : HNode → Bool) (r : HNode) : Option (List Nat × HNode) :=
  (descendants r).find? (fun q => p q.2)

/-- Position (in the `descendants` enumeration) of the first match. -/
def findFirstIdx (p : HNode → Bool) (r : HNode) : Option Nat :=
  (descendants r).findIdx? (fun q => p q.2)

/-- Node of the tree at the given child-index path. -/
def nodeAt : HNode → List Nat → Option HNode
  | n, [] => some n
  | HNode.txt _, _ :: _ => none
  | HNode.el _ _ cs, i :: p =>
    match cs.get? i with
    | some c => nodeAt c p
    | none => none

/-- `find_next_sibling("div")`: among the siblings after child index `idx`,
the first div element. -/
def nextSiblingDiv (cs : List HNode) (idx : Nat) : Option HNode :=
  (cs.drop (idx + 1)).find? (isTag "div")

/-- The loop of `extract_text_after_label` over the direct div children
of the parent of the label div (`find_all("div", recursive=False)`, lines 214-217):
locate the entry with child index `idx` and return the following entry. -/
def colsNext : List (Nat × HNode) → Nat → Option HNode
  | [], _ => none
  | a :: rest, i => if a.1 = i then (rest.head?).map (fun p => p.2) else colsNext rest i

/-- Direct element children of tag `div`, paired with their child indices. -/
def divChildren (cs : List HNode) : List (Nat × HNode) :=
  (cs.enum).filter (fun p => isTag "div" p.2)

/-- `extract_text_after_label` (dbd_one.py lines 209-219): find the first
div whose stripped text equals `label`; among the direct div children of
its parent return the text of the column after it; fall back to the next
div sibling in document order, and `""` when nothing is found. -/
def extract_text_after_label (r : HNode) (label : String) : String :=
  match findFirstNode (fun n => isTag "div" n && (getTextStrip n == label)) r with
  | none => ""
  | some (path, _) =>
    match nodeAt r path.dropLast with
    | some (HNode.el _ _ cs) =>
      let idx := path.getLastD 0
      match colsNext (divChildren cs) idx with
      | some v => getTextSep v
      | none =>
        match nextSiblingDiv cs idx with
        | some nxt => getTextSep nxt
        | none => ""
    | _ => ""

/-- Leading-label removal for the h3 heading, regex
`^ชื่อนิติบุคคล\s*:\s*` (line 224): the label, optional whitespace, a
colon, optional whitespace; an unmatched prefix leaves the string as is. -/
def stripNameLabel (s : String) : String :=
  if "ชื่อนิติบุคคล".isPrefixOf s then
    let rest := (s.drop ("ชื่อนิติบุคคล".length)).dropWhile Char.isWhitespace
    if ":".isPrefixOf rest then (rest.drop 1).dropWhile Char.isWhitespace else s
  else s

/-- Leading-label removal for the h4 heading, regex
`^เลขทะเบียนนิติบุคคล:\s*` (line 225): label and colon, then optional
whitespace. -/
def stripRegLabel (s : String) : String :=
  if "เลขทะเบียนนิติบุคคล:".isPrefixOf s then
    (s.drop ("เลขทะเบียนนิติบุคคล:".length)).dropWhile Char.isWhitespace
  else s

/-- Python `x or "-"`: replace the empty string by the missing sentinel. -/
def orDash (s : String) : String := if s = "" then "-" else s

/-- Python `str.strip(" /")`: drop spaces and slashes from both ends. -/
def stripSpaceSlash (s : String) : String :=
  let cs : List Char := [' ', '/']
  ⟨((s.data.dropWhile (fun c => c ∈ cs)).reverse.dropWhile (fun c => c ∈ cs)).reverse⟩

/-- An h5 heading whose BeautifulSoup `.string` contains `sub`
(`find_all("h5", string=lambda s: s and sub in s)`). -/
def isH5Containing (sub : String) (n : HNode) : Bool :=
  isTag "h5" n &&
    (match stringOf n with
     | some s => decide (sub.data <:+: s.data)
     | none => false)

/-- `x.find_next("div", class_="card-body")`: first card-body div strictly
after position `i` of the `descendants` enumeration of `r`. -/
def nextCardBody (r : HNode) (i : Nat) : Option HNode :=
  (((descendants r).drop (i + 1)).find? (fun q => isTag "div" q.2 && hasCls "card-body" q.2)).map
    (fun q => q.2)

/-- All descendant nodes of `n` (without paths). -/
def descNodes (n : HNode) : List HNode := (descendants n).map (fun q => q.2)

/-- The directors field (dbd_one.py lines 233-239): first h5 whose string
contains the directors heading, its following card-body block, the list
items of that block stripped of trailing spaces/slashes and joined by `", "`;
`"-"` when any step finds nothing. -/
def parseDirectors (r : HNode) : String :=
  match findFirstIdx (isH5Containing "รายชื่อกรรมการ") r with
  | none => "-"
  | some i =>
    match nextCardBody r i with
    | none => "-"
    | some body =>
      let lis := ((descNodes body).filter (isTag "li")).map
        (fun li => stripSpaceSlash (getTextSep li))
      if lis = [] then "-" else ", ".intercalate lis

/-- Inside a card-body block: find the first div with stripped text `label`
and return the text of its next div sibling (dbd_one.py lines 246-249). -/
def labelNextSibling (body : HNode) (label : String) : Option String :=
  match findFirstNode (fun n => isTag "div" n && (getTextStrip n == label)) body with
  | none => none
  | some (path, _) =>
    match nodeAt body path.dropLast with
    | some (HNode.el _ _ cs) => (nextSiblingDiv cs (path.getLastD 0)).map getTextSep
    | _ => none

/-- One business-classification section (dbd_one.py lines 241-259): locate
the h5 whose string contains `headingSub`, its following card-body block,
and within it the type/objective label-value pairs; fields default to
`"-"` and keep whatever text (possibly empty) a found sibling has. -/
def parseTsic (r : HNode) (headingSub : String) : String × String :=
  match findFirstIdx (isH5Containing headingSub) r with
  | none => ("-", "-")
  | some i =>
    match nextCardBody r i with
    | none => ("-", "-")
    | some body =>
      let code := (labelNextSibling body "ประเภทธุรกิจ").getD "-"
      let obj := (labelNextSibling body "วัตถุประสงค์").getD "-"
      (code, obj)

/-- The fixed, total field set of a parsed profile (dbd_one.py
lines 261-267); a field the document lacks holds the sentinel `"-"`. -/
structure ProfileRecord : Type where
  name : String
  reg : String
  status : String
  reg_date : String
  capital : String
  biz_group : String
  biz_size : String
  address : String
  directors : String
  tsic1 : String
  tsic1_obj : String
  tsic2 : String
  tsic2_obj : String
deriving DecidableEq

/-- The name field (line 224): the text of the first h3 with the name label
stripped, `"-"` when missing or empty. -/
def parseName (r : HNode) : String :=
  orDash (stripNameLabel
    (match findFirstNode (isTag "h3") r with
     | some (_, n) => getTextSep n
     | none => ""))

/-- The registration-number field (line 225): the text of the first h4 with the
registration label stripped, `"-"` when missing or empty. -/
def parseReg (r : HNode) : String :=
  orDash (stripRegLabel
    (match findFirstNode (isTag "h4") r with
     | some (_, n) => getTextSep n
     | none => ""))

/-- `parse_profile_html` (dbd_one.py lines 221-267): a total function from
documents to `ProfileRecord`; every field not found resolves to `"-"`. -/
def parse_profile_html (r : HNode) : ProfileRecord :=
  { name := parseName r
    reg := parseReg r
    status := orDash (extract_text_after_label r "สถานะนิติบุคคล")
    reg_date := orDash (extract_text_after_label r "วันที่จดทะเบียนจัดตั้ง")
    capital := orDash (extract_text_after_label r "ทุนจดทะเบียน")
    biz_group := orDash (extract_text_after_label r "กลุ่มธุรกิจ")
    biz_size := orDash (extract_text_after_label r "ขนาดธุรกิจ")
    address := orDash (extract_text_after_label r "ที่ตั้งสำนักงานแห่งใหญ่")
    directors := parseDirectors r
    tsic1 := (parseTsic r "ประเภทธุรกิจตอนจดทะเบียน").1
    tsic1_obj := (parseTsic r "ประเภทธุรกิจตอนจดทะเบียน").2
    tsic2 := (parseTsic r "ประเภทธุรกิจที่ส่งงบการเงินปีล่าสุด").1
    tsic2_obj := (parseTsic r "ประเภทธุรกิจที่ส่งงบการเงินปีล่าสุด").2 }

/-- The acceptance gate of `scrape_one_id` (dbd_one.py line 304): the
record is valid only if its registration-number field is non-empty and is
not the sentinel. -/
def reg_ok (d : ProfileRecord) : Bool := d.reg ≠ "" && d.reg ≠ "-"

/- ===== Run coordinator (`main`, dbd_one.py lines 419-529) ===== -/

/-- One row buffered for the remote sync (dbd_one.py lines 488-492): the
canonical identifier, the parsed record and the fetch timestamp. -/
structure RowU : Type where
  tax_id : Str
  data : ProfileRecord
  fetched_at : String
deriving DecidableEq

/-- Net per-identifier outcome of the fetch loop body (dbd_one.py
lines 461-498): `found` with the parsed record, `notFound` for an
extraction that failed the acceptance gate or exhausted the profile wait,
`failed` for an exception that survived the one-shot driver restart. -/
inductive LoopOutcome : Type where
  | found (rec : ProfileRecord)
  | notFound
  | failed
deriving DecidableEq

/-- The classification buffers accumulated by the run loop:
`rows_to_upsert`, `found_ids`, `not_found_ids`, `fail_ids`
(dbd_one.py lines 453-454). -/
structure RunAcc : Type where
  rows : List RowU
  found : List Str
  notFound : List Str
  failed : List Str
deriving DecidableEq

/-- The fetch loop of `main` (dbd_one.py lines 459-501): each identifier is
classified by the oracle `f` (which abstracts `scrape_one_id` plus the
driver-restart path) into exactly one buffer; a found identifier also
contributes a row carrying its canonical form, the record and the run
timestamp `ts`. -/
def runLoop (f : Str → LoopOutcome) (ts : String) : List Str → RunAcc
  | [] => ⟨[], [], [], []⟩
  | t :: rest =>
    let a := runLoop f ts rest
    match f t with
    | LoopOutcome.found rec =>
      ⟨⟨canon_tax_id t, rec, ts⟩ :: a.rows, t :: a.found, a.notFound, a.failed⟩
    | LoopOutcome.notFound => ⟨a.rows, a.found, t :: a.notFound, a.failed⟩
    | LoopOutcome.failed => ⟨a.rows, a.found, a.notFound, t :: a.failed⟩

/-- Externally visible store events of a run: the batched remote sync and
the single queue-file rewrite. -/
inductive Event : Type where
  | sync (rows : List RowU)
  | removeQueue (ids : List Str)
deriving DecidableEq

/-- Is the event the remote batch sync? -/
def isSyncEvt : Event → Bool
  | Event.sync _ => true
  | _ => false

/-- Is the event the queue-file rewrite? -/
def isRemoveEvt : Event → Bool
  | Event.removeQueue _ => true
  | _ => false

/-- The post-loop tail of `main` (dbd_one.py lines 506-516), as the ordered
trace of store events: when rows were collected, one batched sheet update;
then, when any identifier finished, one queue rewrite removing
`found_ids + not_found_ids`. -/
def mainEvents (f : Str → LoopOutcome) (ts : String) (ids : List Str) : List Event :=
  let a := runLoop f ts ids
  (if a.rows = [] then [] else [Event.sync a.rows]) ++
    (if a.found ++ a.notFound = [] then [] else [Event.removeQueue (a.found ++ a.notFound)])

/-- Observable report of one scheduled run: its store events, how many
identifiers it fetched, and whether it exited successfully. -/
structure RunReport : Type where
  events : List Event
  fetched : Nat
  exitSuccess : Bool
deriving DecidableEq

/-- Modelled from the spec: the single-instance execution guard (spec §3
"Lock", §5, §7 "Lock contention").  The lock primitive itself is not part
of the two source files of the repository; per the spec, a lock that is
held and whose age has not exceeded the TTL causes an immediate, silent,
successful exit with no fetches and zero processed identifiers, while a
free or expired lock lets the run (the embedded `main` pipeline) proceed. -/
def guardedMain (lockAge : Option Nat) (ttl : Nat) (f : Str → LoopOutcome)
    (ts : String) (ids : List Str) : RunReport :=
  match lockAge with
  | some age =>
    if age ≤ ttl then ⟨[], 0, true⟩
    else ⟨mainEvents f ts ids, ids.length, true⟩
  | none => ⟨mainEvents f ts ids, ids.length, true⟩

/- ===== Remote tabular sync (dbd_one.py lines 373-416) ===== -/

/-- The remote sheet: a list of rows, each a list of cell strings; row 1
(list position 0) is the header row. -/
abbrev Sheet : Type := List (List Str)

/-- Value of column A of a row (`ws.col_values(1)` entry). -/
def rowHead (row : List Str) : Str := row.headD []

/-- The loop of `sheet_index` (dbd_one.py lines 375-378) over the column-A
values starting at row number `b`: canonicalize each value, skip empty
ones, record `(identifier, row number)` in traversal order. -/
def sidx (b : Nat) : List Str → List (Str × Nat)
  | [] => []
  | v :: vs =>
    let t := canon_tax_id v
    if t = [] then sidx (b + 1) vs else (t, b) :: sidx (b + 1) vs

/-- `sheet_index(ws)` (dbd_one.py lines 373-379): the identifier column
minus the header row, indexed from row number 2. -/
def sheet_index (s : Sheet) : List (Str × Nat) :=
  sidx 2 ((s.map rowHead).drop 1)

/-- Lookup in the association list built by `sheet_index`, with Python
dict semantics: a later binding for the same key wins. -/
def dlookup (l : List (Str × Nat)) (k : Str) : Option Nat :=
  l.foldl (fun acc p => if p.1 = k then some p.2 else acc) none

/-- A record handed to `batch_upsert_rows`: its `tax_id` field and the
values for the remaining 14 header columns. -/
structure SheetRecord : Type where
  tax_id : Str
  rest : List Str
deriving DecidableEq

/-- The row values built for a record (dbd_one.py lines 394-396):
column A is the canonical identifier behind a leading apostrophe
(an apostrophe marker prepended to keep leading zeros), the rest follow the
header order. -/
def valuesOf (rd : SheetRecord) : List Str :=
  (Char.ofNat 39 :: canon_tax_id rd.tax_id) :: rd.rest

/-- `_chunk(it, n)` (dbd_one.py lines 381-383) for the positive chunk size
`n = m + 1`; the call sites use `chunk_size = 200`, i.e. `m = 199`. -/
def chunkList {α : Type} (m : Nat) : List α → List (List α)
  | [] => []
  | x :: xs => ((x :: xs).take (m + 1)) :: chunkList m (xs.drop m)
termination_by l => l.length
decreasing_by
  simp only [List.length_drop, List.length_cons]
  omega

/-- One targeted range overwrite `A{i}:O{i}` of row number `i` (1-based);
a row number beyond the sheet leaves it unchanged, as `List.set` does. -/
def setRow (s : Sheet) (i : Nat) (v : List Str) : Sheet := s.set (i - 1) v

/-- Apply a payload of `(row number, values)` range overwrites in order
(`sh.values_batch_update`, dbd_one.py lines 403-410). -/
def applyPairs (s : Sheet) (ps : List (Nat × List Str)) : Sheet :=
  ps.foldl (fun s p => setRow s p.1 p.2) s

/-- The `(canonical identifier, row values)` pairs of the record loop of
`batch_upsert_rows` (dbd_one.py lines 393-396). -/
def partsOf (records : List SheetRecord) : List (Str × List Str) :=
  records.map (fun rd => (canon_tax_id rd.tax_id, valuesOf rd))

/-- The update partition (dbd_one.py lines 397-398): records whose
identifier is present in the index, with their target row numbers,
in record order. -/
def updatesOf (existing : List (Str × Nat)) (parts : List (Str × List Str)) :
    List (Nat × List Str) :=
  parts.filterMap (fun p => (dlookup existing p.1).map (fun i => (i, p.2)))

/-- The append partition (dbd_one.py lines 399-400): row values of the
records whose identifier is absent from the index, in record order. -/
def appendsOf (existing : List (Str × Nat)) (parts : List (Str × List Str)) :
    List (List Str) :=
  (parts.filter (fun p => dlookup existing p.1 = none)).map (fun p => p.2)

/-- `batch_upsert_rows` (dbd_one.py lines 385-416): an empty record list is
a no-op; otherwise the index is rebuilt once, records are partitioned in
order into in-place updates (identifier present in the index) and appends
(identifier absent), and both partitions are applied in chunks of 200
(updates as targeted row overwrites, appends with `ws.append_rows`). -/
def batch_upsert_rows (sheet : Sheet) (records : List SheetRecord) : Sheet :=
  if records = [] then sheet
  else
    let existing := sheet_index sheet
    let s1 := (chunkList 199 (updatesOf existing (partsOf records))).foldl applyPairs sheet
    (chunkList 199 (appendsOf existing (partsOf records))).foldl
      (fun s part => s ++ part) s1

/-- The net effect of one `batch_upsert_rows` call with its chunking
flattened: all updates applied in order, then all appends attached. -/
def upsertUnchunked (sheet : Sheet) (records : List SheetRecord) : Sheet :=
  applyPairs sheet (updatesOf (sheet_index sheet) (partsOf records))
    ++ appendsOf (sheet_index sheet) (partsOf records)

/-- Last element of `l` satisfying `q` (the value a fold carrying the most
recent match ends with); mirrors the last-write-wins behaviour of both the
index dictionary and a sequence of row overwrites. -/
def findLast {α : Type} (q : α → Bool) (l : List α) : Option α :=
  l.foldl (fun acc x => if q x then some x else acc) none

/-- Position of the last entry of a column-value list whose canonical form
is `t`. -/
def lastIdxV (t : Str) : List Str → Option Nat
  | [] => none
  | v :: vs =>
    match lastIdxV t vs with
    | some j => some (j + 1)
    | none => if canon_tax_id v = t then some 0 else none

/-- Canonical identifier of the row at list position `j` of a sheet. -/
def canonAt (s : Sheet) (j : Nat) : Option Str :=
  (s.get? j).map (fun row => canon_tax_id (rowHead row))

/-- Position of the first occurrence of `x` in `l` (length of `l` when
absent); used to state the first-seen-order property of the queue load. -/
def firstPos (x : Str) : List Str → Nat
  | [] => 0
  | y :: ys => if x = y then 0 else firstPos x ys + 1

/- ===================== Theorems ===================== -/

/- ----- Canonicalizer lemmas ----- -/

theorem digitsOf_idem (s : Str) : digitsOf (digitsOf s) = digitsOf s := by
  simp [digitsOf, List.filter_filter]

theorem length_zfill13 (s : Str) : (zfill13 s).length = max 13 s.length := by
  simp [zfill13]
  omega

theorem digitsOf_zfill13 (s : Str) (h : digitsOf s = s) : digitsOf (zfill13 s) = zfill13 s := by
  have h0 : (List.replicate (13 - s.length) '0').filter Char.isDigit
      = List.replicate (13 - s.length) '0' := by
    apply List.filter_eq_self.mpr
    intro a ha
    rw [List.eq_of_mem_replicate ha]
    decide
  simp only [digitsOf, zfill13, List.filter_append, h0]
  simp only [digitsOf] at h
  rw [h]

theorem zfill13_ne_nil (s : Str) : zfill13 s ≠ [] := by
  intro hc
  have h := length_zfill13 s
  rw [hc] at h
  simp at h
  omega

theorem zfill13_of_long (s : Str) (h : 13 ≤ s.length) : zfill13 s = s := by
  unfold zfill13
  have h0 : 13 - s.length = 0 := by omega
  rw [h0]
  simp

theorem canon_tax_id_idem (s : Str) : canon_tax_id (canon_tax_id s) = canon_tax_id s := by
  unfold canon_tax_id
  by_cases h : digitsOf s = []
  · simp only [h]
    simp [show digitsOf ([] : Str) = [] from rfl]
  · simp only [h, if_false]
    have h2 : digitsOf (zfill13 (digitsOf s)) = zfill13 (digitsOf s) :=
      digitsOf_zfill13 _ (digitsOf_idem s)
    rw [h2]
    simp only [zfill13_ne_nil, if_false]
    apply zfill13_of_long
    rw [length_zfill13]
    omega

theorem canon_tax_id_digits (s : Str) : ∀ c ∈ canon_tax_id s, c.isDigit := by
  intro c hc
  unfold canon_tax_id at hc
  by_cases h : digitsOf s = []
  · simp [h] at hc
  · simp only [h, if_false, zfill13] at hc
    rcases List.mem_append.mp hc with h1 | h1
    · rw [List.eq_of_mem_replicate h1]; decide
    · exact List.of_mem_filter h1

/-- C5, counterexample: on an input with fourteen digit characters the
canonicalizer returns a fourteen-character string — neither the empty
string nor exactly 13 digits, refuting the claimed output shape. -/
theorem canon_tax_id_not_always_13 :
    canon_tax_id (s2l "12345678901234") ≠ [] ∧
    (canon_tax_id (s2l "12345678901234")).length ≠ 13 := by
  decide

/-- C5, amended: `canon_tax_id` is idempotent, and its result is either the
empty string or a digit string of length `max 13 d` where `d` is the number
of digit characters of the input — in particular at least 13 digits always,
and exactly 13 digits whenever the input carries at most 13 digit
characters (`zfill` pads but never truncates). -/
theorem canon_tax_id_spec (s : Str) :
    canon_tax_id (canon_tax_id s) = canon_tax_id s ∧
    (canon_tax_id s = [] ∨
      (13 ≤ (canon_tax_id s).length ∧ ∀ c ∈ canon_tax_id s, c.isDigit)) ∧
    ((digitsOf s).length ≤ 13 → canon_tax_id s = [] ∨ (canon_tax_id s).length = 13) := by
  refine ⟨canon_tax_id_idem s, ?_, ?_⟩
  · by_cases h : digitsOf s = []
    · left
      simp [canon_tax_id, h]
    · right
      constructor
      · simp only [canon_tax_id, h, if_false]
        rw [length_zfill13]
        omega
      · exact canon_tax_id_digits s
  · intro hlen
    by_cases h : digitsOf s = []
    · left
      simp [canon_tax_id, h]
    · right
      simp only [canon_tax_id, h, if_false]
      rw [length_zfill13]
      omega

/-- C5, witness: the amended theorem applied to a concrete raw input with a
dash and twelve digits. -/
theorem canon_tax_id_spec_witness :
    (digitsOf (s2l "1-35563016845")).length ≤ 13 ∧
    (canon_tax_id (s2l "1-35563016845") = [] ∨
      (canon_tax_id (s2l "1-35563016845")).length = 13) :=
  ⟨by decide, (canon_tax_id_spec (s2l "1-35563016845")).2.2 (by decide)⟩

/- ----- Work-queue lemmas ----- -/

theorem removeLines_eq_filter (targets : List Str) (lines : List Str) :
    removeLines targets lines =
      lines.filter (fun l => decide (lineRemoveId l = [] ∨ ¬ lineRemoveId l ∈ targets)) := by
  induction lines with
  | nil => rfl
  | cons l rest ih =>
    by_cases h : lineRemoveId l = [] ∨ ¬ lineRemoveId l ∈ targets
    · simp [removeLines, h, ih]
    · simp [removeLines, h, ih]

theorem removeLines_sublist (targets : List Str) (lines : List Str) :
    (removeLines targets lines).Sublist lines := by
  rw [removeLines_eq_filter]
  exact List.filter_sublist lines

theorem mem_removeLines (targets : List Str) (lines : List Str) (l : Str) :
    l ∈ removeLines targets lines ↔
      l ∈ lines ∧ (lineRemoveId l = [] ∨ ¬ lineRemoveId l ∈ targets) := by
  rw [removeLines_eq_filter]
  simp [List.mem_filter]

/-- C2, counterexample: a queue line with no extractable identifier (a pure
comment line) is kept by the rewrite, while the claim says every such line
is dropped. -/
theorem remove_keeps_commentlines :
    lineRemoveId (s2l "# comment only") = [] ∧
    removeLines (targetsOf [s2l "0000000000001"]) [s2l "# comment only"]
      = [s2l "# comment only"] := by
  constructor
  · decide
  · decide

/-- C2, amended: `remove(path, S)` rewrites the queue file keeping exactly
those original lines whose extracted identifier is not in (the canonical
image of) `S` or whose extracted identifier is empty — lines with no
extractable identifier are kept, not dropped; other paths are untouched. -/
theorem remove_ids_from_txt_spec (fs : FS) (path : String) (S : List Str)
    (lines : List Str) (h : fs path = some lines) :
    remove_ids_from_txt fs path S path = some (removeLines (targetsOf S) lines) ∧
    (removeLines (targetsOf S) lines).Sublist lines ∧
    (∀ l, l ∈ removeLines (targetsOf S) lines ↔
      l ∈ lines ∧ (lineRemoveId l = [] ∨ ¬ lineRemoveId l ∈ targetsOf S)) ∧
    (∀ p, p ≠ path → remove_ids_from_txt fs path S p = fs p) := by
  refine ⟨?_, removeLines_sublist _ _, fun l => mem_removeLines _ _ l, ?_⟩
  · simp [remove_ids_from_txt, h]
  · intro p hp
    simp [remove_ids_from_txt, h, hp]

/-- C2, witness: the amended rewrite applied to a two-line queue file
holding one comment line and one identifier line. -/
theorem remove_ids_from_txt_spec_witness :
    remove_ids_from_txt
        (fun p => if p = "tax_ids.txt" then some [s2l "# note", s2l "0135563016845"] else none)
        "tax_ids.txt" [s2l "0135563016845"] "tax_ids.txt"
      = some (removeLines (targetsOf [s2l "0135563016845"]) [s2l "# note", s2l "0135563016845"]) :=
  (remove_ids_from_txt_spec _ "tax_ids.txt" [s2l "0135563016845"]
    [s2l "# note", s2l "0135563016845"] (by simp)).1

/-- C10: calling `remove` on a missing queue file is a no-op — the function
returns before opening any file, so the filesystem (queue file and
temporary file included) is unchanged for every identifier set. -/
theorem remove_ids_from_txt_missing_noop (fs : FS) (path : String) (S : List Str)
    (h : fs path = none) :
    remove_ids_from_txt fs path S = fs := by
  simp [remove_ids_from_txt, h]

/-- C10, witness: the no-op theorem applied to the empty filesystem. -/
theorem remove_ids_from_txt_missing_noop_witness :
    remove_ids_from_txt (fun _ => none) "tax_ids.txt" [s2l "0135563016845"]
      = (fun _ => none) :=
  remove_ids_from_txt_missing_noop (fun _ => none) "tax_ids.txt" [s2l "0135563016845"] rfl

/- ----- Retry-combinator lemmas ----- -/

theorem with_retry_go_ok {ε α : Type} (fn : Nat → Except ε α) :
    ∀ (n i j : Nat) (a : α), j < n → fn (i + j) = Except.ok a →
      (∀ k, k < j → ∃ e, fn (i + k) = Except.error e) →
      with_retry_go fn i n = Except.ok (some a) := by
  intro n
  induction n with
  | zero => intro i j a hj; omega
  | succ m ih =>
    intro i j a hj hok hfail
    cases j with
    | zero =>
      simp only [Nat.add_zero] at hok
      simp [with_retry_go, hok]
    | succ k =>
      obtain ⟨e, he⟩ := hfail 0 (by omega)
      simp only [Nat.add_zero] at he
      have hm : m ≠ 0 := by omega
      simp only [with_retry_go, he, hm, if_false]
      apply ih (i + 1) k a (by omega)
      · have : i + 1 + k = i + (k + 1) := by omega
        rw [this]
        exact hok
      · intro k2 hk2
        have : i + 1 + k2 = i + (k2 + 1) := by omega
        rw [this]
        exact hfail (k2 + 1) (by omega)

theorem with_retry_go_err {ε α : Type} (fn : Nat → Except ε α) :
    ∀ (n i : Nat) (e : ε), 1 ≤ n →
      (∀ k, k < n → ∃ e2, fn (i + k) = Except.error e2) →
      fn (i + (n - 1)) = Except.error e →
      with_retry_go fn i n = Except.error e := by
  intro n
  induction n with
  | zero => intro i e h; omega
  | succ m ih =>
    intro i e _ hfail hlast
    cases Nat.eq_zero_or_pos m with
    | inl hm0 =>
      subst hm0
      have hx : i + (0 + 1 - 1) = i := by omega
      rw [hx] at hlast
      simp [with_retry_go, hlast]
    | inr hmpos =>
      obtain ⟨e0, he0⟩ := hfail 0 (by omega)
      simp only [Nat.add_zero] at he0
      have hm : m ≠ 0 := by omega
      simp only [with_retry_go, he0, hm, if_false]
      apply ih (i + 1) e hmpos
      · intro k hk
        have : i + 1 + k = i + (k + 1) := by omega
        rw [this]
        exact hfail (k + 1) (by omega)
      · have : i + 1 + (m - 1) = i + (m + 1 - 1) := by omega
        rw [this]
        exact hlast

/-- C9: for a positive attempt budget, `with_retry` returns the result of
the action on the first attempt that succeeds (performing up to
`tries - 1` retries), and when every attempt raises it re-raises the
failure of the final attempt to the caller. -/
theorem with_retry_spec {ε α : Type} (fn : Nat → Except ε α) (tries : Nat)
    (h : 1 ≤ tries) :
    (∀ j a, j < tries → fn j = Except.ok a →
      (∀ k, k < j → ∃ e, fn k = Except.error e) →
      with_retry fn tries = Except.ok (some a)) ∧
    (∀ e, (∀ k, k < tries → ∃ e2, fn k = Except.error e2) →
      fn (tries - 1) = Except.error e →
      with_retry fn tries = Except.error e) := by
  constructor
  · intro j a hj hok hfail
    apply with_retry_go_ok fn tries 0 j a hj
    · simpa using hok
    · intro k hk
      simpa using hfail k hk
  · intro e hfail hlast
    apply with_retry_go_err fn tries 0 e h
    · intro k hk
      simpa using hfail k hk
    · simpa using hlast

/-- A concrete attempt oracle: the first attempt raises, later ones
succeed. -/
def retryProbe : Nat → Except Nat Nat :=
  fun i => if i = 0 then Except.error 7 else Except.ok 42

/-- C9, witness: the retry theorem applied to `retryProbe` with three
attempts — the first attempt fails, the second succeeds and its value is
returned. -/
theorem with_retry_spec_witness : with_retry retryProbe 3 = Except.ok (some 42) :=
  (with_retry_spec retryProbe 3 (by omega)).1 1 42 (by omega) rfl
    (fun k hk => by
      have hk0 : k = 0 := by omega
      subst hk0
      exact ⟨7, rfl⟩)

/- ----- Queue-load lemmas ----- -/

theorem dedupFirstNE_sublist (l : List Str) :
    ∀ seen, (dedupFirstNE seen l).Sublist l := by
  induction l with
  | nil => intro seen; simp [dedupFirstNE]
  | cons x xs ih =>
    intro seen
    simp only [dedupFirstNE]
    by_cases h : x ≠ [] ∧ ¬ x ∈ seen
    · rw [if_pos h]
      exact (ih (x :: seen)).cons₂ x
    · rw [if_neg h]
      exact (ih seen).cons x

theorem mem_dedupFirstNE (l : List Str) :
    ∀ seen x, x ∈ dedupFirstNE seen l ↔ x ∈ l ∧ x ≠ [] ∧ ¬ x ∈ seen := by
  induction l with
  | nil => intro seen x; simp [dedupFirstNE]
  | cons y xs ih =>
    intro seen x
    simp only [dedupFirstNE]
    by_cases h : y ≠ [] ∧ ¬ y ∈ seen
    · rw [if_pos h]
      by_cases hxy : x = y
      · subst hxy
        simp [h.1, h.2]
      · simp only [List.mem_cons, ih (y :: seen) x, hxy, false_or]
    · rw [if_neg h]
      rw [ih seen x, List.mem_cons]
      constructor
      · rintro ⟨h1, h2, h3⟩
        exact ⟨Or.inr h1, h2, h3⟩
      · rintro ⟨h1, h2, h3⟩
        rcases h1 with h1 | h1
        · subst h1
          exact absurd ⟨h2, h3⟩ h
        · exact ⟨h1, h2, h3⟩

theorem dedupFirstNE_nodup (l : List Str) :
    ∀ seen, (dedupFirstNE seen l).Nodup := by
  induction l with
  | nil => intro seen; simp [dedupFirstNE]
  | cons y xs ih =>
    intro seen
    simp only [dedupFirstNE]
    by_cases h : y ≠ [] ∧ ¬ y ∈ seen
    · rw [if_pos h]
      refine List.Nodup.cons ?_ (ih (y :: seen))
      intro hc
      have := (mem_dedupFirstNE xs (y :: seen) y).mp hc
      exact this.2.2 (List.mem_cons_self y seen)
    · rw [if_neg h]
      exact ih seen

theorem firstPos_cons_self (x : Str) (l : List Str) : firstPos x (x :: l) = 0 := by
  simp [firstPos]

theorem firstPos_cons_ne (x y : Str) (l : List Str) (h : x ≠ y) :
    firstPos x (y :: l) = firstPos x l + 1 := by
  simp [firstPos, h]

theorem dedupFirstNE_pairwise (l : List Str) :
    ∀ seen, (dedupFirstNE seen l).Pairwise
      (fun a b => firstPos a l < firstPos b l) := by
  induction l with
  | nil => intro seen; simp [dedupFirstNE]
  | cons y xs ih =>
    intro seen
    have hne : ∀ a, a ∈ dedupFirstNE (y :: seen) xs → a ≠ y := by
      intro a ha hc
      have := (mem_dedupFirstNE xs (y :: seen) a).mp ha
      exact this.2.2 (hc ▸ List.mem_cons_self y seen)
    simp only [dedupFirstNE]
    by_cases h : y ≠ [] ∧ ¬ y ∈ seen
    · rw [if_pos h]
      refine List.Pairwise.cons ?_ ?_
      · intro b hb
        rw [firstPos_cons_self, firstPos_cons_ne b y xs (hne b hb)]
        omega
      · refine List.Pairwise.imp_of_mem ?_ (ih (y :: seen))
        intro a b ha hb hab
        rw [firstPos_cons_ne a y xs (hne a ha), firstPos_cons_ne b y xs (hne b hb)]
        omega
    · rw [if_neg h]
      have hne2 : ∀ a, a ∈ dedupFirstNE seen xs → a ≠ y := by
        intro a ha hc
        have hmem := (mem_dedupFirstNE xs seen a).mp ha
        rcases not_and_or.mp h with hy | hy
        · rw [not_not] at hy
          exact hmem.2.1 (hc.trans hy)
        · rw [not_not] at hy
          exact hmem.2.2 (hc ▸ hy)
      refine List.Pairwise.imp_of_mem ?_ (ih seen)
      intro a b ha hb hab
      rw [firstPos_cons_ne a y xs (hne2 a ha), firstPos_cons_ne b y xs (hne2 b hb)]
      omega

theorem digitPrefixLen_le (l : Str) : digitPrefixLen l ≤ l.length := by
  induction l with
  | nil => simp [digitPrefixLen]
  | cons c cs ih =>
    simp only [digitPrefixLen, List.length_cons]
    by_cases h : c.isDigit
    · simp [h]; omega
    · simp [h]

theorem take_digit_run (l : Str) :
    ∀ n, n ≤ digitPrefixLen l → ∀ c ∈ l.take n, c.isDigit := by
  induction l with
  | nil => intro n hn c hc; simp at hc
  | cons b bs ih =>
    intro n hn c hc
    cases n with
    | zero => simp at hc
    | succ m =>
      by_cases hb : b.isDigit
      · simp only [digitPrefixLen, hb, if_true] at hn
        simp only [List.take_succ_cons, List.mem_cons] at hc
        rcases hc with hc | hc
        · subst hc; exact hb
        · exact ih m (by omega) c hc
      · simp [digitPrefixLen, hb] at hn

theorem searchRun_spec (l : Str) :
    ∀ r, searchRun l = some r → 12 ≤ r.length ∧ r.length ≤ 13 ∧ ∀ c ∈ r, c.isDigit := by
  induction l with
  | nil => intro r hr; simp [searchRun] at hr
  | cons c cs ih =>
    intro r hr
    simp only [searchRun] at hr
    by_cases hd : 12 ≤ digitPrefixLen (c :: cs)
    · simp only [hd, if_true, Option.some.injEq] at hr
      subst hr
      have hle : digitPrefixLen (c :: cs) ≤ (c :: cs).length := digitPrefixLen_le (c :: cs)
      refine ⟨?_, ?_, ?_⟩
      · rw [List.length_take]
        omega
      · rw [List.length_take]
        omega
      · exact take_digit_run (c :: cs) _ (by omega)
    · simp only [hd, if_false] at hr
      exact ih r hr

theorem lineLoadId_spec (line : Str) (x : Str) (h : lineLoadId line = some x) :
    x ≠ [] ∧ x.length = 13 ∧ ∀ c ∈ x, c.isDigit := by
  unfold lineLoadId at h
  by_cases hl : pstrip (beforeHash line) = []
  · simp [hl] at h
  · simp only [hl, if_false, Option.map_eq_some'] at h
    obtain ⟨r, hr, hx⟩ := h
    obtain ⟨h12, h13, hdig⟩ := searchRun_spec _ r hr
    have hfil : digitsOf r = r := List.filter_eq_self.mpr hdig
    have hrne : r ≠ [] := by
      intro hc
      rw [hc] at h12
      simp at h12
    subst hx
    unfold canon_tax_id
    rw [hfil]
    simp only [hrne, if_false]
    refine ⟨zfill13_ne_nil r, ?_, ?_⟩
    · rw [length_zfill13]
      omega
    · intro c hc
      unfold zfill13 at hc
      rcases List.mem_append.mp hc with hc | hc
      · rw [List.eq_of_mem_replicate hc]; decide
      · exact hdig c hc

/-- C7: `load` (`read_tax_ids`) returns a duplicate-free list of canonical
13-digit identifiers, a sub-sequence of the per-line extractions (first
12-13 digit run after comment stripping) containing exactly the extracted
identifiers, sorted by first occurrence of each identifier; a missing file
yields the empty list. -/
theorem read_tax_ids_spec (lines : List Str) :
    (read_tax_ids (some lines)).Nodup ∧
    (read_tax_ids (some lines)).Sublist (lines.filterMap lineLoadId) ∧
    (∀ x, x ∈ read_tax_ids (some lines) ↔ x ∈ lines.filterMap lineLoadId) ∧
    (read_tax_ids (some lines)).Pairwise
      (fun a b => firstPos a (lines.filterMap lineLoadId)
        < firstPos b (lines.filterMap lineLoadId)) ∧
    (∀ x ∈ read_tax_ids (some lines), x.length = 13 ∧ ∀ c ∈ x, c.isDigit) ∧
    read_tax_ids (none : Option (List Str)) = [] := by
  have hne : ∀ x ∈ lines.filterMap lineLoadId, x ≠ [] := by
    intro x hx
    obtain ⟨line, _, hsome⟩ := List.mem_filterMap.mp hx
    exact (lineLoadId_spec line x hsome).1
  refine ⟨dedupFirstNE_nodup _ [], dedupFirstNE_sublist _ [], ?_, dedupFirstNE_pairwise _ [], ?_, rfl⟩
  · intro x
    rw [show read_tax_ids (some lines) = dedupFirstNE [] (lines.filterMap lineLoadId) from rfl]
    rw [mem_dedupFirstNE]
    constructor
    · rintro ⟨h1, _, _⟩
      exact h1
    · intro h1
      exact ⟨h1, hne x h1, by simp⟩
  · intro x hx
    have hmem : x ∈ lines.filterMap lineLoadId := by
      have := (mem_dedupFirstNE (lines.filterMap lineLoadId) [] x).mp hx
      exact this.1
    obtain ⟨line, _, hsome⟩ := List.mem_filterMap.mp hmem
    exact (lineLoadId_spec line x hsome).2

/-- C7, witness: the example of the spec — a commented line and an
uncommented 12-digit line canonicalize to the same identifier and the
load returns it once, duplicate-free. -/
theorem read_tax_ids_spec_witness :
    read_tax_ids (some [s2l "0135563016845 # foo", s2l "135563016845"])
      = [s2l "0135563016845"] ∧
    (read_tax_ids (some [s2l "0135563016845 # foo", s2l "135563016845"])).Nodup :=
  ⟨by decide, (read_tax_ids_spec [s2l "0135563016845 # foo", s2l "135563016845"]).1⟩

/- ----- remove/load interaction lemmas ----- -/

theorem targetsOf_mem (S : List Str) (hS : ∀ s ∈ S, canon_tax_id s = s ∧ s ≠ []) :
    ∀ x, x ∈ targetsOf S ↔ x ∈ S := by
  intro x
  unfold targetsOf
  constructor
  · intro hx
    obtain ⟨s, hs, hcs⟩ := List.mem_map.mp hx
    have hsS : s ∈ S := (List.mem_filter.mp hs).1
    have := (hS s hsS).1
    rw [this] at hcs
    exact hcs ▸ hsS
  · intro hx
    apply List.mem_map.mpr
    refine ⟨x, ?_, (hS x hx).1⟩
    apply List.mem_filter.mpr
    exact ⟨hx, by simpa using (hS x hx).2⟩

theorem removeLines_congr (T1 T2 : List Str) (h : ∀ x, x ∈ T1 ↔ x ∈ T2) :
    ∀ lines, removeLines T1 lines = removeLines T2 lines := by
  intro lines
  induction lines with
  | nil => rfl
  | cons line rest ih =>
    simp only [removeLines, h (lineRemoveId line), ih]

theorem removeLines_loadIds (T : List Str) (lines : List Str)
    (hagree : ∀ line ∈ lines,
      lineLoadId line = none ∨ lineLoadId line = some (lineRemoveId line)) :
    (removeLines T lines).filterMap lineLoadId
      = (lines.filterMap lineLoadId).filter (fun x => decide (¬ x ∈ T)) := by
  induction lines with
  | nil => rfl
  | cons line rest ih =>
    have ihr := ih (fun l hl => hagree l (List.mem_cons_of_mem line hl))
    rcases hagree line (List.mem_cons_self line rest) with hl | hl
    · by_cases hk : lineRemoveId line = [] ∨ ¬ lineRemoveId line ∈ T
      · simp only [removeLines, if_pos hk, List.filterMap_cons, hl, ihr]
      · simp only [removeLines, if_neg hk, List.filterMap_cons, hl, ihr]
    · have hxne : lineRemoveId line ≠ [] := (lineLoadId_spec line _ hl).1
      by_cases hmem : lineRemoveId line ∈ T
      · have hk : ¬ (lineRemoveId line = [] ∨ ¬ lineRemoveId line ∈ T) := by
          push_neg
          exact ⟨hxne, hmem⟩
        simp only [removeLines, if_neg hk, List.filterMap_cons, hl, ihr,
          List.filter_cons]
        simp [hmem]
      · have hk : lineRemoveId line = [] ∨ ¬ lineRemoveId line ∈ T := Or.inr hmem
        simp only [removeLines, if_pos hk, List.filterMap_cons, hl, ihr,
          List.filter_cons]
        simp [hmem]

theorem dedupFirstNE_filter (p : Str → Bool) (l : List Str) :
    ∀ seen1 seen2, (∀ x, p x = true → (x ∈ seen1 ↔ x ∈ seen2)) →
      dedupFirstNE seen1 (l.filter p) = (dedupFirstNE seen2 l).filter p := by
  induction l with
  | nil => intro seen1 seen2 _; rfl
  | cons y xs ih =>
    intro seen1 seen2 hinv
    by_cases hp : p y = true
    · have hyy : y ∈ seen1 ↔ y ∈ seen2 := hinv y hp
      rw [List.filter_cons, if_pos hp]
      by_cases h2 : y ≠ [] ∧ ¬ y ∈ seen2
      · have h1 : y ≠ [] ∧ ¬ y ∈ seen1 := ⟨h2.1, fun hc => h2.2 (hyy.mp hc)⟩
        simp only [dedupFirstNE]
        rw [if_pos h1, if_pos h2, List.filter_cons, if_pos hp]
        congr 1
        apply ih
        intro x hx
        simp only [List.mem_cons]
        rw [iff_iff_implies_and_implies]
        constructor
        · rintro (hc | hc)
          · exact Or.inl hc
          · exact Or.inr ((hinv x hx).mp hc)
        · rintro (hc | hc)
          · exact Or.inl hc
          · exact Or.inr ((hinv x hx).mpr hc)
      · have h1 : ¬ (y ≠ [] ∧ ¬ y ∈ seen1) := by
          intro hc
          exact h2 ⟨hc.1, fun hm => hc.2 (hyy.mpr hm)⟩
        simp only [dedupFirstNE]
        rw [if_neg h1, if_neg h2]
        exact ih seen1 seen2 hinv
    · rw [List.filter_cons, if_neg hp]
      by_cases h2 : y ≠ [] ∧ ¬ y ∈ seen2
      · simp only [dedupFirstNE]
        rw [if_pos h2, List.filter_cons, if_neg hp]
        apply ih
        intro x hx
        have hxy : x ≠ y := by
          intro hc
          rw [hc] at hx
          rw [hx] at hp
          exact hp rfl
        simp only [List.mem_cons, hxy, false_or]
        exact hinv x hx
      · simp only [dedupFirstNE]
        rw [if_neg h2]
        exact ih seen1 seen2 hinv

/-- C3, counterexample: `remove` canonicalizes the concatenation of all
digits on a line while `load` takes the first 12-13-digit run, so on the
queue line `"123456789012 x3"` and the singleton set holding the canonical
identifier `load` extracts, `remove` followed by `load` does not equal
`load`-before minus the set (the set member survives the rewrite). -/
theorem remove_then_load_counterexample :
    canon_tax_id (s2l "0123456789012") = s2l "0123456789012" ∧
    ¬ (read_tax_ids
        (remove_ids_from_txt
          (fun p => if p = "q" then some [s2l "123456789012 x3"] else none)
          "q" [s2l "0123456789012"] "q")
      = (read_tax_ids
          ((fun p => if p = "q" then some [s2l "123456789012 x3"] else none : FS) "q")).filter
          (fun x => decide (¬ x ∈ [s2l "0123456789012"]))) := by
  constructor
  · decide
  · decide

/-- C3, amended: for a queue file on which the two extraction rules agree
line by line (every line whose `load` extraction succeeds has the same
`remove` extraction — e.g. each identifier-bearing line carries exactly one
12-13 digit run and no stray digits), and any non-empty set `S` of
canonical identifiers, `remove(queue, S)` followed by `load(queue)` yields
exactly the pre-removal load with the members of `S` deleted, in order. -/
theorem remove_then_load_spec (fs : FS) (path : String) (S : List Str) (lines : List Str)
    (hfile : fs path = some lines)
    (_hS0 : S ≠ [])
    (hS : ∀ s ∈ S, canon_tax_id s = s ∧ s ≠ [])
    (hagree : ∀ line ∈ lines,
      lineLoadId line = none ∨ lineLoadId line = some (lineRemoveId line)) :
    read_tax_ids (remove_ids_from_txt fs path S path)
      = (read_tax_ids (fs path)).filter (fun x => decide (¬ x ∈ S)) := by
  have h1 : remove_ids_from_txt fs path S path = some (removeLines (targetsOf S) lines) := by
    simp [remove_ids_from_txt, hfile]
  rw [h1, hfile]
  show dedupFirstNE [] ((removeLines (targetsOf S) lines).filterMap lineLoadId)
    = (dedupFirstNE [] (lines.filterMap lineLoadId)).filter (fun x => decide (¬ x ∈ S))
  rw [removeLines_congr (targetsOf S) S (targetsOf_mem S hS) lines]
  rw [removeLines_loadIds S lines hagree]
  exact dedupFirstNE_filter (fun x => decide (¬ x ∈ S)) (lines.filterMap lineLoadId) [] []
    (fun x _ => Iff.rfl)

/-- C3, witness: the amended theorem applied to a concrete well-formed
queue (one identifier line with a comment, one pure comment line) and the
singleton set holding that identifier. -/
theorem remove_then_load_spec_witness :
    read_tax_ids
        (remove_ids_from_txt
          (fun p => if p = "q" then some [s2l "0135563016845 # foo", s2l "# note"] else none)
          "q" [s2l "0135563016845"] "q")
      = (read_tax_ids
          ((fun p => if p = "q" then some [s2l "0135563016845 # foo", s2l "# note"] else none : FS)
            "q")).filter
          (fun x => decide (¬ x ∈ [s2l "0135563016845"])) :=
  remove_then_load_spec
    (fun p => if p = "q" then some [s2l "0135563016845 # foo", s2l "# note"] else none)
    "q" [s2l "0135563016845"] [s2l "0135563016845 # foo", s2l "# note"]
    (by simp) (by decide) (by decide) (by decide)

/- ----- Run-coordinator lemmas ----- -/

theorem runLoop_found_mem (f : Str → LoopOutcome) (ts : String) :
    ∀ ids x, x ∈ (runLoop f ts ids).found → ∃ r, f x = LoopOutcome.found r := by
  intro ids
  induction ids with
  | nil => intro x hx; simp [runLoop] at hx
  | cons t rest ih =>
    intro x hx
    simp only [runLoop] at hx
    cases hf : f t with
    | found r =>
      rw [hf] at hx
      simp only [List.mem_cons] at hx
      rcases hx with hx | hx
      · exact ⟨r, hx ▸ hf⟩
      · exact ih x hx
    | notFound =>
      rw [hf] at hx
      exact ih x hx
    | failed =>
      rw [hf] at hx
      exact ih x hx

theorem runLoop_failed_mem (f : Str → LoopOutcome) (ts : String) :
    ∀ ids x, x ∈ (runLoop f ts ids).failed → f x = LoopOutcome.failed := by
  intro ids
  induction ids with
  | nil => intro x hx; simp [runLoop] at hx
  | cons t rest ih =>
    intro x hx
    simp only [runLoop] at hx
    cases hf : f t with
    | found r =>
      rw [hf] at hx
      exact ih x hx
    | notFound =>
      rw [hf] at hx
      exact ih x hx
    | failed =>
      rw [hf] at hx
      simp only [List.mem_cons] at hx
      rcases hx with hx | hx
      · exact hx ▸ hf
      · exact ih x hx

theorem runLoop_notFound_mem (f : Str → LoopOutcome) (ts : String) :
    ∀ ids x, x ∈ (runLoop f ts ids).notFound → f x = LoopOutcome.notFound := by
  intro ids
  induction ids with
  | nil => intro x hx; simp [runLoop] at hx
  | cons t rest ih =>
    intro x hx
    simp only [runLoop] at hx
    cases hf : f t with
    | found r =>
      rw [hf] at hx
      exact ih x hx
    | notFound =>
      rw [hf] at hx
      simp only [List.mem_cons] at hx
      rcases hx with hx | hx
      · exact hx ▸ hf
      · exact ih x hx
    | failed =>
      rw [hf] at hx
      exact ih x hx

theorem runLoop_rows_map (f : Str → LoopOutcome) (ts : String) :
    ∀ ids, (runLoop f ts ids).rows.map RowU.tax_id
      = (runLoop f ts ids).found.map canon_tax_id := by
  intro ids
  induction ids with
  | nil => rfl
  | cons t rest ih =>
    simp only [runLoop]
    cases hf : f t with
    | found r => simp only [List.map_cons, ih]
    | notFound => exact ih
    | failed => exact ih

theorem runLoop_rows_nil_iff (f : Str → LoopOutcome) (ts : String) (ids : List Str) :
    (runLoop f ts ids).rows = [] ↔ (runLoop f ts ids).found = [] := by
  have h := congrArg List.length (runLoop_rows_map f ts ids)
  simp only [List.length_map] at h
  constructor
  · intro hc
    rw [hc] at h
    simp at h
    exact List.length_eq_zero.mp h.symm
  · intro hc
    rw [hc] at h
    simp at h
    exact h

theorem runLoop_failed_not_done (f : Str → LoopOutcome) (ts : String) (ids : List Str)
    (x : Str) (hx : x ∈ (runLoop f ts ids).failed) :
    ¬ x ∈ (runLoop f ts ids).found ++ (runLoop f ts ids).notFound := by
  intro hc
  have hfail := runLoop_failed_mem f ts ids x hx
  rcases List.mem_append.mp hc with hm | hm
  · obtain ⟨r, hr⟩ := runLoop_found_mem f ts ids x hm
    rw [hfail] at hr
    cases hr
  · have := runLoop_notFound_mem f ts ids x hm
    rw [hfail] at this
    cases this

/-- C1: in the store-event trace of every run, the queue rewrite happens exactly
once when any identifier resolved this run (and not at all otherwise),
removes exactly the Found ∪ NotFound identifiers — never a TransientFail
identifier — and every remote batch sync (which carries exactly the rows
of all Found identifiers) strictly precedes the queue rewrite. -/
theorem main_sync_before_remove (f : Str → LoopOutcome) (ts : String) (ids : List Str) :
    ((mainEvents f ts ids).countP isRemoveEvt
      = if (runLoop f ts ids).found ++ (runLoop f ts ids).notFound = [] then 0 else 1) ∧
    (∀ rs, Event.removeQueue rs ∈ mainEvents f ts ids →
      rs = (runLoop f ts ids).found ++ (runLoop f ts ids).notFound ∧
      ∀ x ∈ (runLoop f ts ids).failed, ¬ x ∈ rs) ∧
    (∀ rows, Event.sync rows ∈ mainEvents f ts ids →
      rows = (runLoop f ts ids).rows ∧
      rows.map RowU.tax_id = (runLoop f ts ids).found.map canon_tax_id) ∧
    (∀ i j : Nat, (∃ rows, (mainEvents f ts ids).get? i = some (Event.sync rows)) →
      (∃ rs, (mainEvents f ts ids).get? j = some (Event.removeQueue rs)) → i < j) ∧
    ((runLoop f ts ids).found ≠ [] →
      (mainEvents f ts ids).get? 0 = some (Event.sync (runLoop f ts ids).rows) ∧
      (mainEvents f ts ids).get? 1
        = some (Event.removeQueue
            ((runLoop f ts ids).found ++ (runLoop f ts ids).notFound))) := by
  by_cases hd : (runLoop f ts ids).found ++ (runLoop f ts ids).notFound = []
  · have hf : (runLoop f ts ids).found = [] := (List.append_eq_nil.mp hd).1
    have hr : (runLoop f ts ids).rows = [] := (runLoop_rows_nil_iff f ts ids).mpr hf
    have he : mainEvents f ts ids = [] := by
      simp [mainEvents, hr, hd]
    refine ⟨?_, ?_, ?_, ?_, ?_⟩
    · rw [he, if_pos hd]
      rfl
    · intro rs hrs
      rw [he] at hrs
      simp at hrs
    · intro rows hrows
      rw [he] at hrows
      simp at hrows
    · intro i j hi _
      obtain ⟨rows, hi⟩ := hi
      rw [he] at hi
      simp at hi
    · intro hc
      exact absurd hf hc
  · by_cases hf : (runLoop f ts ids).found = []
    · have hr : (runLoop f ts ids).rows = [] := (runLoop_rows_nil_iff f ts ids).mpr hf
      have he : mainEvents f ts ids
          = [Event.removeQueue ((runLoop f ts ids).found ++ (runLoop f ts ids).notFound)] := by
        simp [mainEvents, hr, hd]
      refine ⟨?_, ?_, ?_, ?_, ?_⟩
      · rw [he, if_neg hd]
        simp [List.countP_cons, isRemoveEvt]
      · intro rs hrs
        rw [he] at hrs
        simp only [List.mem_singleton, Event.removeQueue.injEq] at hrs
        subst hrs
        exact ⟨rfl, fun x hx => runLoop_failed_not_done f ts ids x hx⟩
      · intro rows hrows
        rw [he] at hrows
        simp at hrows
      · intro i j hi _
        obtain ⟨rows, hi⟩ := hi
        rw [he] at hi
        exfalso
        cases i with
        | zero => simp at hi
        | succ m =>
          cases m <;> simp at hi
      · intro hc
        exact absurd hf hc
    · have hrne : (runLoop f ts ids).rows ≠ [] := by
        intro hc
        exact hf ((runLoop_rows_nil_iff f ts ids).mp hc)
      have he : mainEvents f ts ids
          = [Event.sync (runLoop f ts ids).rows,
             Event.removeQueue ((runLoop f ts ids).found ++ (runLoop f ts ids).notFound)] := by
        simp [mainEvents, hrne, hd]
      refine ⟨?_, ?_, ?_, ?_, ?_⟩
      · rw [he, if_neg hd]
        simp [List.countP_cons, isRemoveEvt]
      · intro rs hrs
        rw [he] at hrs
        simp only [List.mem_cons, List.mem_singleton] at hrs
        rcases hrs with hrs | hrs
        · cases hrs
        · rcases hrs with hrs | hrs
          · injection hrs with hrs2
            subst hrs2
            exact ⟨rfl, fun x hx => runLoop_failed_not_done f ts ids x hx⟩
          · simp at hrs
      · intro rows hrows
        rw [he] at hrows
        simp only [List.mem_cons, List.mem_singleton] at hrows
        rcases hrows with hrows | hrows
        · injection hrows with hrows2
          subst hrows2
          exact ⟨rfl, runLoop_rows_map f ts ids⟩
        · rcases hrows with hrows | hrows
          · cases hrows
          · simp at hrows
      · intro i j hi hj
        obtain ⟨rows, hi⟩ := hi
        obtain ⟨rs, hj⟩ := hj
        rw [he] at hi hj
        have hi0 : i = 0 := by
          cases i with
          | zero => rfl
          | succ m =>
            exfalso
            cases m with
            | zero => simp at hi
            | succ k => simp at hi
        have hj1 : j = 1 := by
          cases j with
          | zero => simp at hj
          | succ m =>
            cases m with
            | zero => rfl
            | succ k => simp at hj
        omega
      · intro _
        rw [he]
        exact ⟨rfl, rfl⟩

/-- A constant all-sentinel record for concrete run-loop instances. -/
def probeRecord : ProfileRecord :=
  ⟨"-", "-", "-", "-", "-", "-", "-", "-", "-", "-", "-", "-", "-"⟩

/-- A concrete fetch oracle exercising all three outcomes. -/
def probeOutcome : Str → LoopOutcome :=
  fun t =>
    if t = s2l "1" then LoopOutcome.found probeRecord
    else if t = s2l "2" then LoopOutcome.notFound
    else LoopOutcome.failed

/-- C1, witness: the trace theorem applied to a three-identifier run with
one Found, one NotFound and one TransientFail — exactly one queue rewrite,
preceded by the sync of the Found rows. -/
theorem main_sync_before_remove_witness :
    (mainEvents probeOutcome "t" [s2l "1", s2l "2", s2l "3"]).countP isRemoveEvt = 1 ∧
    (mainEvents probeOutcome "t" [s2l "1", s2l "2", s2l "3"]).get? 0
      = some (Event.sync (runLoop probeOutcome "t" [s2l "1", s2l "2", s2l "3"]).rows) := by
  have h := main_sync_before_remove probeOutcome "t" [s2l "1", s2l "2", s2l "3"]
  constructor
  · rw [h.1]
    norm_num
    decide
  · exact (h.2.2.2.2 (by decide)).1

/-- C4: when the lock of another run is held and its age has not exceeded the
TTL, the guarded run exits immediately with a success status, emits no
store events (performs no fetches) and reports zero processed
identifiers.  (The lock guard is modelled from the spec; see
`guardedMain`.) -/
theorem lock_contention_early_exit (age ttl : Nat) (f : Str → LoopOutcome)
    (ts : String) (ids : List Str) (h : age ≤ ttl) :
    guardedMain (some age) ttl f ts ids = ⟨[], 0, true⟩ := by
  simp [guardedMain, h]

/-- C4, witness: the early-exit theorem applied to a five-minute-old lock
under a sixty-minute TTL with a non-empty queue slice. -/
theorem lock_contention_early_exit_witness :
    guardedMain (some 5) 60 probeOutcome "t" [s2l "1", s2l "2"]
      = ⟨[], 0, true⟩ :=
  lock_contention_early_exit 5 60 probeOutcome "t" [s2l "1", s2l "2"] (by omega)

/- ----- Document-extractor theorems ----- -/

/-- C8: `parse` is a total function into the fixed field set
`ProfileRecord` (every absent field resolves to the sentinel, never an
exception), and on any document with no registration-number heading (no h4
element) the registration field resolves to the sentinel, so the record
fails the acceptance gate no matter which other fields are present. -/
theorem parse_missing_reg_invalid (doc : HNode)
    (h : findFirstNode (isTag "h4") doc = none) :
    (parse_profile_html doc).reg = "-" ∧ reg_ok (parse_profile_html doc) = false := by
  have hreg : (parse_profile_html doc).reg = "-" := by
    show parseReg doc = "-"
    unfold parseReg
    rw [h]
    rfl
  refine ⟨hreg, ?_⟩
  rw [reg_ok, hreg]
  rfl

/-- A concrete profile fragment carrying a name heading, a status
label/value pair and a directors block, but no h4 registration heading. -/
def noRegDoc : HNode :=
  HNode.el "div" [] [
    HNode.el "h3" [] [HNode.txt "ชื่อนิติบุคคล : ทดสอบ จำกัด"],
    HNode.el "div" [] [
      HNode.el "div" [] [HNode.txt "สถานะนิติบุคคล"],
      HNode.el "div" [] [HNode.txt "ยังดำเนินกิจการอยู่"]],
    HNode.el "h5" [] [HNode.txt "รายชื่อกรรมการ"],
    HNode.el "div" ["card-body"] [
      HNode.el "ul" [] [HNode.el "li" [] [HNode.txt "สมชาย ใจดี /"]]]]

/-- C8, witness: the acceptance-gate theorem applied to `noRegDoc`, whose
other fields are present but which lacks a registration-number element. -/
theorem parse_missing_reg_invalid_witness :
    reg_ok (parse_profile_html noRegDoc) = false :=
  (parse_missing_reg_invalid noRegDoc (by rfl)).2

/- ----- Remote-sync lemmas: chunking ----- -/

theorem chunkList_join {α : Type} (m : Nat) (l : List α) :
    (chunkList m l).flatten = l := by
  have key : ∀ n (l2 : List α), l2.length ≤ n → (chunkList m l2).flatten = l2 := by
    intro n
    induction n with
    | zero =>
      intro l2 hl
      have : l2 = [] := List.eq_nil_of_length_eq_zero (by omega)
      subst this
      simp [chunkList]
    | succ k ih =>
      intro l2 hl
      cases l2 with
      | nil => simp [chunkList]
      | cons x xs =>
        rw [chunkList]
        simp only [List.flatten_cons]
        rw [ih (xs.drop m) (by simp only [List.length_drop]; simp at hl; omega)]
        rw [List.take_succ_cons]
        rw [List.cons_append]
        congr 1
        exact List.take_append_drop m xs
  exact key l.length l le_rfl

theorem foldl_applyPairs_join (L : List (List (Nat × List Str))) :
    ∀ s : Sheet, L.foldl applyPairs s = applyPairs s L.flatten := by
  induction L with
  | nil => intro s; simp [applyPairs]
  | cons p L ih =>
    intro s
    simp only [List.foldl_cons, List.flatten_cons, ih]
    unfold applyPairs
    rw [List.foldl_append]

theorem foldl_append_join (L : List (List (List Str))) :
    ∀ s : Sheet, L.foldl (fun s part => s ++ part) s = s ++ L.flatten := by
  induction L with
  | nil => intro s; simp
  | cons p L ih =>
    intro s
    simp only [List.foldl_cons, List.flatten_cons, ih]
    rw [List.append_assoc]

theorem batch_upsert_eq_unchunked (sheet : Sheet) (records : List SheetRecord)
    (h : records ≠ []) :
    batch_upsert_rows sheet records = upsertUnchunked sheet records := by
  simp only [batch_upsert_rows, upsertUnchunked, if_neg h, foldl_applyPairs_join,
    foldl_append_join, chunkList_join]

/- ----- Remote-sync lemmas: findLast and dlookup ----- -/

theorem findLast_foldl_init {α : Type} (q : α → Bool) :
    ∀ (l : List α) (init : Option α),
      l.foldl (fun acc x => if q x then some x else acc) init
        = match findLast q l with
          | some y => some y
          | none => init := by
  intro l
  induction l with
  | nil => intro init; rfl
  | cons x l ih =>
    intro init
    show l.foldl _ (if q x then some x else init) = _
    rw [ih (if q x then some x else init)]
    show _ = match l.foldl (fun acc x => if q x then some x else acc)
        (if q x then some x else none) with
      | some y => some y
      | none => init
    rw [ih (if q x then some x else none)]
    cases hfl : findLast q l with
    | some y => rfl
    | none =>
      by_cases hq : q x
      · simp [hq]
      · simp [hq]

theorem findLast_cons {α : Type} (q : α → Bool) (x : α) (l : List α) :
    findLast q (x :: l)
      = match findLast q l with
        | some y => some y
        | none => if q x then some x else none := by
  show l.foldl _ (if q x then some x else none) = _
  rw [findLast_foldl_init]

theorem findLast_cons_some {α : Type} (q : α → Bool) (x : α) (l : List α)
    (y : α) (h : findLast q l = some y) : findLast q (x :: l) = some y := by
  rw [findLast_cons, h]

theorem findLast_cons_none {α : Type} (q : α → Bool) (x : α) (l : List α)
    (h : findLast q l = none) :
    findLast q (x :: l) = if q x then some x else none := by
  rw [findLast_cons, h]

theorem findLast_mem {α : Type} (q : α → Bool) :
    ∀ (l : List α) (y : α), findLast q l = some y → y ∈ l ∧ q y = true := by
  intro l
  induction l with
  | nil => intro y hy; cases hy
  | cons x l ih =>
    intro y hy
    cases hfl : findLast q l with
    | some z =>
      rw [findLast_cons_some q x l z hfl] at hy
      injection hy with hyz
      subst hyz
      obtain ⟨hm, hq⟩ := ih z hfl
      exact ⟨List.mem_cons_of_mem x hm, hq⟩
    | none =>
      rw [findLast_cons_none q x l hfl] at hy
      by_cases hq : q x
      · rw [if_pos hq] at hy
        injection hy with hyz
        subst hyz
        exact ⟨List.mem_cons_self x l, hq⟩
      · rw [if_neg hq] at hy
        cases hy

theorem findLast_eq_none {α : Type} (q : α → Bool) :
    ∀ l : List α, findLast q l = none ↔ ∀ x ∈ l, ¬ q x = true := by
  intro l
  induction l with
  | nil => simp [findLast]
  | cons x l ih =>
    cases hfl : findLast q l with
    | some z =>
      rw [findLast_cons_some q x l z hfl]
      constructor
      · intro hc; cases hc
      · intro hall
        obtain ⟨hm, hq⟩ := findLast_mem q l z hfl
        exact absurd hq (hall z (List.mem_cons_of_mem x hm))
    | none =>
      rw [findLast_cons_none q x l hfl]
      rw [hfl] at ih
      by_cases hq : q x
      · rw [if_pos hq]
        constructor
        · intro hc; cases hc
        · intro hall
          exact absurd hq (hall x (List.mem_cons_self x l))
      · rw [if_neg hq]
        constructor
        · intro _ y hy
          rcases List.mem_cons.mp hy with hy | hy
          · subst hy; exact hq
          · exact (ih.mp rfl) y hy
        · intro _
          rfl

theorem findLast_isSome_of_mem {α : Type} (q : α → Bool) (l : List α) (x : α)
    (hx : x ∈ l) (hq : q x = true) : ∃ y, findLast q l = some y := by
  cases hfl : findLast q l with
  | some y => exact ⟨y, rfl⟩
  | none => exact absurd hq ((findLast_eq_none q l).mp hfl x hx)

theorem dlookup_foldl_init (k : Str) :
    ∀ (l : List (Str × Nat)) (init : Option Nat),
      l.foldl (fun acc p => if p.1 = k then some p.2 else acc) init
        = match dlookup l k with
          | some v => some v
          | none => init := by
  intro l
  induction l with
  | nil => intro init; rfl
  | cons p l ih =>
    intro init
    show l.foldl _ (if p.1 = k then some p.2 else init) = _
    rw [ih (if p.1 = k then some p.2 else init)]
    show _ = match l.foldl (fun acc p => if p.1 = k then some p.2 else acc)
        (if p.1 = k then some p.2 else none) with
      | some v => some v
      | none => init
    rw [ih (if p.1 = k then some p.2 else none)]
    cases hfl : dlookup l k with
    | some v => rfl
    | none =>
      by_cases hq : p.1 = k
      · simp [hq]
      · simp [hq]

theorem dlookup_cons (p : Str × Nat) (l : List (Str × Nat)) (k : Str) :
    dlookup (p :: l) k
      = match dlookup l k with
        | some v => some v
        | none => if p.1 = k then some p.2 else none := by
  show l.foldl _ (if p.1 = k then some p.2 else none) = _
  rw [dlookup_foldl_init]

theorem lastIdxV_cons_some (t v : Str) (vs : List Str) (j : Nat)
    (h : lastIdxV t vs = some j) : lastIdxV t (v :: vs) = some (j + 1) := by
  unfold lastIdxV
  rw [h]

theorem lastIdxV_cons_none (t v : Str) (vs : List Str)
    (h : lastIdxV t vs = none) :
    lastIdxV t (v :: vs) = if canon_tax_id v = t then some 0 else none := by
  unfold lastIdxV
  rw [h]

theorem dlookup_sidx (t : Str) (ht : t ≠ []) :
    ∀ (vs : List Str) (b : Nat),
      dlookup (sidx b vs) t = (lastIdxV t vs).map (fun j => b + j) := by
  intro vs
  induction vs with
  | nil => intro b; rfl
  | cons v vs ih =>
    intro b
    by_cases hc : canon_tax_id v = []
    · have hs : sidx b (v :: vs) = sidx (b + 1) vs := by
        simp only [sidx]
        rw [if_pos hc]
      rw [hs, ih (b + 1)]
      cases hl : lastIdxV t vs with
      | some j =>
        rw [lastIdxV_cons_some t v vs j hl]
        simp only [Option.map_some', Option.some.injEq]
        omega
      | none =>
        have hvt : ¬ canon_tax_id v = t := by
          rw [hc]
          exact fun hx => ht hx.symm
        rw [lastIdxV_cons_none t v vs hl, if_neg hvt]
        rfl
    · have hs : sidx b (v :: vs) = (canon_tax_id v, b) :: sidx (b + 1) vs := by
        simp only [sidx]
        rw [if_neg hc]
      rw [hs, dlookup_cons, ih (b + 1)]
      cases hl : lastIdxV t vs with
      | some j =>
        rw [lastIdxV_cons_some t v vs j hl]
        simp only [Option.map_some', Option.some.injEq]
        omega
      | none =>
        rw [lastIdxV_cons_none t v vs hl]
        by_cases hvt : canon_tax_id v = t
        · rw [if_pos hvt, if_pos hvt]
          simp
        · rw [if_neg hvt, if_neg hvt]
          rfl

theorem dlookup_sidx_nil :
    ∀ (vs : List Str) (b : Nat), dlookup (sidx b vs) [] = none := by
  intro vs
  induction vs with
  | nil => intro b; rfl
  | cons v vs ih =>
    intro b
    by_cases hc : canon_tax_id v = []
    · have hs : sidx b (v :: vs) = sidx (b + 1) vs := by
        simp only [sidx]
        rw [if_pos hc]
      rw [hs]
      exact ih (b + 1)
    · have hs : sidx b (v :: vs) = (canon_tax_id v, b) :: sidx (b + 1) vs := by
        simp only [sidx]
        rw [if_neg hc]
      rw [hs, dlookup_cons, ih (b + 1)]
      simp only [if_neg hc]

theorem lastIdxV_some (t : Str) :
    ∀ (vs : List Str) (j : Nat), lastIdxV t vs = some j →
      j < vs.length ∧ ∃ v, vs.get? j = some v ∧ canon_tax_id v = t := by
  intro vs
  induction vs with
  | nil => intro j hj; cases hj
  | cons v vs ih =>
    intro j hj
    cases hl : lastIdxV t vs with
    | some j2 =>
      rw [lastIdxV_cons_some t v vs j2 hl] at hj
      injection hj with hj
      subst hj
      obtain ⟨hlen, w, hw, hcw⟩ := ih j2 hl
      exact ⟨by simp; omega, w, by simpa using hw, hcw⟩
    | none =>
      rw [lastIdxV_cons_none t v vs hl] at hj
      by_cases hvt : canon_tax_id v = t
      · rw [if_pos hvt] at hj
        injection hj with hj
        subst hj
        exact ⟨by simp, v, rfl, hvt⟩
      · rw [if_neg hvt] at hj
        cases hj

theorem lastIdxV_none (t : Str) :
    ∀ vs : List Str, lastIdxV t vs = none ↔ ∀ v ∈ vs, ¬ canon_tax_id v = t := by
  intro vs
  induction vs with
  | nil => simp [lastIdxV]
  | cons v vs ih =>
    cases hl : lastIdxV t vs with
    | some j =>
      rw [lastIdxV_cons_some t v vs j hl]
      constructor
      · intro hc; cases hc
      · intro hall
        obtain ⟨_, w, hw, hcw⟩ := lastIdxV_some t vs j hl
        exact absurd hcw (hall w (List.mem_cons_of_mem v (List.get?_mem hw)))
    | none =>
      rw [lastIdxV_cons_none t v vs hl]
      rw [hl] at ih
      by_cases hvt : canon_tax_id v = t
      · rw [if_pos hvt]
        constructor
        · intro hc; cases hc
        · intro hall
          exact absurd hvt (hall v (List.mem_cons_self v vs))
      · rw [if_neg hvt]
        constructor
        · intro _ w hw
          rcases List.mem_cons.mp hw with hw | hw
          · subst hw; exact hvt
          · exact (ih.mp rfl) w hw
        · intro _
          rfl

theorem lastIdxV_append_some (t : Str) :
    ∀ (xs ys : List Str) (j : Nat), lastIdxV t ys = some j →
      lastIdxV t (xs ++ ys) = some (xs.length + j) := by
  intro xs
  induction xs with
  | nil => intro ys j h; simpa using h
  | cons x xs ih =>
    intro ys j h
    rw [List.cons_append, lastIdxV_cons_some t x (xs ++ ys) (xs.length + j) (ih ys j h)]
    simp only [List.length_cons, Option.some.injEq]
    omega

theorem lastIdxV_append_none (t : Str) :
    ∀ (xs ys : List Str), lastIdxV t ys = none →
      lastIdxV t (xs ++ ys) = lastIdxV t xs := by
  intro xs
  induction xs with
  | nil => intro ys h; simpa using h
  | cons x xs ih =>
    intro ys h
    rw [List.cons_append]
    cases hx : lastIdxV t xs with
    | some j =>
      rw [lastIdxV_cons_some t x (xs ++ ys) j (by rw [ih ys h]; exact hx)]
      rw [lastIdxV_cons_some t x xs j hx]
    | none =>
      rw [lastIdxV_cons_none t x (xs ++ ys) (by rw [ih ys h]; exact hx)]
      rw [lastIdxV_cons_none t x xs hx]

theorem lastIdxV_congr (t : Str) :
    ∀ xs ys : List Str, xs.length = ys.length →
      (∀ j v w, xs.get? j = some v → ys.get? j = some w →
        canon_tax_id v = canon_tax_id w) →
      lastIdxV t xs = lastIdxV t ys := by
  intro xs
  induction xs with
  | nil =>
    intro ys hlen _
    have : ys = [] := List.eq_nil_of_length_eq_zero (by simp at hlen; omega)
    subst this
    rfl
  | cons x xs ih =>
    intro ys hlen hpt
    cases ys with
    | nil => simp at hlen
    | cons y ys2 =>
      have hxs : lastIdxV t xs = lastIdxV t ys2 := by
        apply ih ys2 (by simp at hlen; omega)
        intro j v w hv hw
        exact hpt (j + 1) v w (by simpa using hv) (by simpa using hw)
      have hxy : canon_tax_id x = canon_tax_id y := hpt 0 x y rfl rfl
      cases hl : lastIdxV t ys2 with
      | some j =>
        rw [lastIdxV_cons_some t x xs j (by rw [hxs]; exact hl)]
        rw [lastIdxV_cons_some t y ys2 j hl]
      | none =>
        rw [lastIdxV_cons_none t x xs (by rw [hxs]; exact hl)]
        rw [lastIdxV_cons_none t y ys2 hl]
        rw [hxy]

theorem applyPairs_length :
    ∀ (ps : List (Nat × List Str)) (s : Sheet), (applyPairs s ps).length = s.length := by
  intro ps
  induction ps with
  | nil => intro s; rfl
  | cons p ps ih =>
    intro s
    show (applyPairs (setRow s p.1 p.2) ps).length = s.length
    rw [ih (setRow s p.1 p.2)]
    simp [setRow]

theorem applyPairs_get?_none :
    ∀ (ps : List (Nat × List Str)) (s : Sheet) (j : Nat),
      (∀ p ∈ ps, 1 ≤ p.1) →
      findLast (fun p => decide (p.1 = j + 1)) ps = none →
      (applyPairs s ps).get? j = s.get? j := by
  intro ps
  induction ps with
  | nil => intro s j _ _; rfl
  | cons q ps ih =>
    intro s j hbound hnone
    have hall := (findLast_eq_none _ _).mp hnone
    have hq : ¬ q.1 = j + 1 := by
      have := hall q (List.mem_cons_self q ps)
      simpa using this
    have hps : findLast (fun p => decide (p.1 = j + 1)) ps = none := by
      apply (findLast_eq_none _ _).mpr
      intro p hp
      exact hall p (List.mem_cons_of_mem q hp)
    show (applyPairs (setRow s q.1 q.2) ps).get? j = s.get? j
    rw [ih (setRow s q.1 q.2) j (fun p hp => hbound p (List.mem_cons_of_mem q hp)) hps]
    have hq1 : 1 ≤ q.1 := hbound q (List.mem_cons_self q ps)
    have hne : q.1 - 1 ≠ j := by omega
    exact List.get?_set_ne q.2 s hne

theorem applyPairs_get?_some :
    ∀ (ps : List (Nat × List Str)) (s : Sheet) (j : Nat) (p : Nat × List Str),
      (∀ p2 ∈ ps, 1 ≤ p2.1) →
      findLast (fun p2 => decide (p2.1 = j + 1)) ps = some p →
      (applyPairs s ps).get? j = if j < s.length then some p.2 else s.get? j := by
  intro ps
  induction ps with
  | nil => intro s j p _ h; cases h
  | cons q ps ih =>
    intro s j p hbound hsome
    have hbound2 : ∀ p2 ∈ ps, 1 ≤ p2.1 := fun p2 hp => hbound p2 (List.mem_cons_of_mem q hp)
    cases hfl : findLast (fun p2 => decide (p2.1 = j + 1)) ps with
    | some r =>
      rw [findLast_cons_some _ q ps r hfl] at hsome
      injection hsome with hsome
      subst hsome
      show (applyPairs (setRow s q.1 q.2) ps).get? j = _
      rw [ih (setRow s q.1 q.2) j r hbound2 hfl]
      have hlen : (setRow s q.1 q.2).length = s.length := by simp [setRow]
      rw [hlen]
      by_cases hj : j < s.length
      · rw [if_pos hj, if_pos hj]
      · rw [if_neg hj, if_neg hj]
        have h1 : (setRow s q.1 q.2).get? j = none := by
          apply List.get?_eq_none.mpr
          rw [hlen]
          omega
        have h2 : s.get? j = none := by
          apply List.get?_eq_none.mpr
          omega
        rw [h1, h2]
    | none =>
      rw [findLast_cons_none _ q ps hfl] at hsome
      by_cases hq : q.1 = j + 1
      · rw [if_pos (by simpa using hq)] at hsome
        injection hsome with hsome
        subst hsome
        show (applyPairs (setRow s q.1 q.2) ps).get? j = _
        rw [applyPairs_get?_none ps (setRow s q.1 q.2) j hbound2 hfl]
        unfold setRow
        have hq1 : q.1 - 1 = j := by omega
        rw [hq1]
        by_cases hj : j < s.length
        · rw [if_pos hj]
          exact List.get?_set_eq_of_lt q.2 hj
        · rw [if_neg hj]
          have h1 : (s.set j q.2).get? j = none := by
            apply List.get?_eq_none.mpr
            simp
            omega
          have h2 : s.get? j = none := by
            apply List.get?_eq_none.mpr
            omega
          rw [h1, h2]
      · rw [if_neg (by simpa using hq)] at hsome
        cases hsome

theorem canon_tax_id_def (x : Str) :
    canon_tax_id x = if digitsOf x = [] then [] else zfill13 (digitsOf x) := rfl

theorem canon_quote (s : Str) :
    canon_tax_id (Char.ofNat 39 :: canon_tax_id s) = canon_tax_id s := by
  have hq : (Char.ofNat 39).isDigit = false := by decide
  have hfix : digitsOf (canon_tax_id s) = canon_tax_id s :=
    List.filter_eq_self.mpr (canon_tax_id_digits s)
  have hdig : digitsOf (Char.ofNat 39 :: canon_tax_id s) = canon_tax_id s := by
    rw [show digitsOf (Char.ofNat 39 :: canon_tax_id s)
        = digitsOf (canon_tax_id s) from by simp [digitsOf, List.filter_cons, hq]]
    exact hfix
  rw [canon_tax_id_def (Char.ofNat 39 :: canon_tax_id s), hdig]
  by_cases hc : canon_tax_id s = []
  · rw [if_pos hc]
    exact hc.symm
  · rw [if_neg hc]
    apply zfill13_of_long
    rw [canon_tax_id_def s] at hc ⊢
    by_cases hd : digitsOf s = []
    · rw [if_pos hd] at hc
      exact absurd rfl hc
    · rw [if_neg hd] at hc ⊢
      rw [length_zfill13]
      omega

theorem rowHead_valuesOf (rd : SheetRecord) :
    rowHead (valuesOf rd) = Char.ofNat 39 :: canon_tax_id rd.tax_id := rfl

theorem canon_rowHead_valuesOf (rd : SheetRecord) :
    canon_tax_id (rowHead (valuesOf rd)) = canon_tax_id rd.tax_id := by
  rw [rowHead_valuesOf]
  exact canon_quote rd.tax_id

theorem updatesOf_cons_some (E : List (Str × Nat)) (rd : SheetRecord)
    (rest : List SheetRecord) (i : Nat)
    (h : dlookup E (canon_tax_id rd.tax_id) = some i) :
    updatesOf E (partsOf (rd :: rest)) = (i, valuesOf rd) :: updatesOf E (partsOf rest) := by
  simp [updatesOf, partsOf, h]

theorem updatesOf_cons_none (E : List (Str × Nat)) (rd : SheetRecord)
    (rest : List SheetRecord)
    (h : dlookup E (canon_tax_id rd.tax_id) = none) :
    updatesOf E (partsOf (rd :: rest)) = updatesOf E (partsOf rest) := by
  simp [updatesOf, partsOf, h]

theorem appendsOf_cons_some (E : List (Str × Nat)) (rd : SheetRecord)
    (rest : List SheetRecord) (i : Nat)
    (h : dlookup E (canon_tax_id rd.tax_id) = some i) :
    appendsOf E (partsOf (rd :: rest)) = appendsOf E (partsOf rest) := by
  simp [appendsOf, partsOf, h]

theorem appendsOf_cons_none (E : List (Str × Nat)) (rd : SheetRecord)
    (rest : List SheetRecord)
    (h : dlookup E (canon_tax_id rd.tax_id) = none) :
    appendsOf E (partsOf (rd :: rest)) = valuesOf rd :: appendsOf E (partsOf rest) := by
  simp [appendsOf, partsOf, h]

theorem mem_updatesOf (E : List (Str × Nat)) :
    ∀ (records : List SheetRecord) (p : Nat × List Str),
      p ∈ updatesOf E (partsOf records) →
      ∃ rd, rd ∈ records ∧ dlookup E (canon_tax_id rd.tax_id) = some p.1 ∧
        p.2 = valuesOf rd := by
  intro records
  induction records with
  | nil => intro p hp; cases hp
  | cons rd rest ih =>
    intro p hp
    cases hrd : dlookup E (canon_tax_id rd.tax_id) with
    | some i =>
      rw [updatesOf_cons_some E rd rest i hrd] at hp
      rcases List.mem_cons.mp hp with hp | hp
      · subst hp
        exact ⟨rd, List.mem_cons_self rd rest, hrd, rfl⟩
      · obtain ⟨rd2, hm, hl, hv⟩ := ih p hp
        exact ⟨rd2, List.mem_cons_of_mem rd hm, hl, hv⟩
    | none =>
      rw [updatesOf_cons_none E rd rest hrd] at hp
      obtain ⟨rd2, hm, hl, hv⟩ := ih p hp
      exact ⟨rd2, List.mem_cons_of_mem rd hm, hl, hv⟩

theorem mem_appendsOf (E : List (Str × Nat)) :
    ∀ (records : List SheetRecord) (v : List Str),
      v ∈ appendsOf E (partsOf records) →
      ∃ rd, rd ∈ records ∧ dlookup E (canon_tax_id rd.tax_id) = none ∧
        v = valuesOf rd := by
  intro records
  induction records with
  | nil => intro v hv; cases hv
  | cons rd rest ih =>
    intro v hv
    cases hrd : dlookup E (canon_tax_id rd.tax_id) with
    | some i =>
      rw [appendsOf_cons_some E rd rest i hrd] at hv
      obtain ⟨rd2, hm, hl, hveq⟩ := ih v hv
      exact ⟨rd2, List.mem_cons_of_mem rd hm, hl, hveq⟩
    | none =>
      rw [appendsOf_cons_none E rd rest hrd] at hv
      rcases List.mem_cons.mp hv with hv | hv
      · subst hv
        exact ⟨rd, List.mem_cons_self rd rest, hrd, rfl⟩
      · obtain ⟨rd2, hm, hl, hveq⟩ := ih v hv
        exact ⟨rd2, List.mem_cons_of_mem rd hm, hl, hveq⟩

theorem sheet_index_nil_key (s : Sheet) : dlookup (sheet_index s) [] = none := by
  unfold sheet_index
  exact dlookup_sidx_nil _ 2

theorem sheet_index_position (s : Sheet) (t : Str) (k : Nat) (ht : t ≠ [])
    (hk : dlookup (sheet_index s) t = some k) :
    2 ≤ k ∧ k - 1 < s.length ∧ canonAt s (k - 1) = some t := by
  unfold sheet_index at hk
  rw [dlookup_sidx t ht] at hk
  cases hl : lastIdxV t ((s.map rowHead).drop 1) with
  | none =>
    rw [hl] at hk
    cases hk
  | some j =>
    rw [hl] at hk
    simp only [Option.map_some', Option.some.injEq] at hk
    obtain ⟨hjlen, v, hv, hcv⟩ := lastIdxV_some t _ j hl
    rw [List.get?_drop] at hv
    rw [List.get?_map] at hv
    cases hrow : s.get? (1 + j) with
    | none =>
      rw [hrow] at hv
      cases hv
    | some row =>
      rw [hrow] at hv
      simp only [Option.map_some', Option.some.injEq] at hv
      have hlen2 : ((s.map rowHead).drop 1).length = s.length - 1 := by simp
      refine ⟨by omega, by omega, ?_⟩
      unfold canonAt
      rw [show k - 1 = 1 + j from by omega, hrow]
      simp only [Option.map_some', Option.some.injEq]
      rw [hv, hcv]

theorem updatesOf_key_ne_nil (sheet : Sheet) (records : List SheetRecord)
    (p : Nat × List Str)
    (hp : p ∈ updatesOf (sheet_index sheet) (partsOf records)) :
    ∃ rd, rd ∈ records ∧ canon_tax_id rd.tax_id ≠ [] ∧
      dlookup (sheet_index sheet) (canon_tax_id rd.tax_id) = some p.1 ∧
      p.2 = valuesOf rd := by
  obtain ⟨rd, hm, hl, hv⟩ := mem_updatesOf _ records p hp
  refine ⟨rd, hm, ?_, hl, hv⟩
  intro hc
  rw [hc, sheet_index_nil_key] at hl
  cases hl

theorem updatesOf_bound (sheet : Sheet) (records : List SheetRecord) :
    ∀ p ∈ updatesOf (sheet_index sheet) (partsOf records), 1 ≤ p.1 := by
  intro p hp
  obtain ⟨rd, _, htne, hl, _⟩ := updatesOf_key_ne_nil sheet records p hp
  have := sheet_index_position sheet _ p.1 htne hl
  omega

theorem updatePass_canonAt (sheet : Sheet) (records : List SheetRecord) :
    ∀ j, canonAt (applyPairs sheet (updatesOf (sheet_index sheet) (partsOf records))) j
      = canonAt sheet j := by
  intro j
  cases hfl : findLast (fun p => decide (p.1 = j + 1))
      (updatesOf (sheet_index sheet) (partsOf records)) with
  | none =>
    unfold canonAt
    rw [applyPairs_get?_none _ sheet j (updatesOf_bound sheet records) hfl]
  | some p =>
    obtain ⟨hpmem, hpq⟩ := findLast_mem _ _ p hfl
    obtain ⟨rd, hrdmem, htne, hrd, hpv⟩ := updatesOf_key_ne_nil sheet records p hpmem
    have hpos := sheet_index_position sheet _ p.1 htne hrd
    have hp1 : p.1 = j + 1 := by simpa using hpq
    have hj : j < sheet.length := by omega
    unfold canonAt
    rw [applyPairs_get?_some _ sheet j p (updatesOf_bound sheet records) hfl, if_pos hj]
    rw [hpv]
    simp only [Option.map_some']
    rw [canon_rowHead_valuesOf]
    have h2 : canonAt sheet j = some (canon_tax_id rd.tax_id) := by
      rw [show j = p.1 - 1 from by omega]
      exact hpos.2.2
    unfold canonAt at h2
    rw [h2]

theorem findLast_updates (E : List (Str × Nat)) (t : Str) (k : Nat)
    (hk : dlookup E t = some k) :
    ∀ records : List SheetRecord,
      (∀ rd ∈ records, dlookup E (canon_tax_id rd.tax_id) = some k →
        canon_tax_id rd.tax_id = t) →
      findLast (fun p => decide (p.1 = k)) (updatesOf E (partsOf records))
        = (findLast (fun rd => decide (canon_tax_id rd.tax_id = t)) records).map
            (fun rd => (k, valuesOf rd)) := by
  intro records
  induction records with
  | nil => intro _; rfl
  | cons rd rest ih =>
    intro hinj
    have ihr := ih (fun rd2 h2 hl2 => hinj rd2 (List.mem_cons_of_mem rd h2) hl2)
    cases hrd : dlookup E (canon_tax_id rd.tax_id) with
    | some i =>
      rw [updatesOf_cons_some E rd rest i hrd]
      cases hflr : findLast (fun rd2 => decide (canon_tax_id rd2.tax_id = t)) rest with
      | some r =>
        rw [hflr] at ihr
        simp only [Option.map_some'] at ihr
        rw [findLast_cons_some _ _ _ _ ihr]
        rw [findLast_cons_some _ rd rest r hflr]
        simp only [Option.map_some']
      | none =>
        rw [hflr] at ihr
        simp only [Option.map_none'] at ihr
        rw [findLast_cons_none _ _ _ ihr]
        rw [findLast_cons_none _ rd rest hflr]
        by_cases hit : canon_tax_id rd.tax_id = t
        · have hik : i = k := by
            rw [hit] at hrd
            have := hrd.symm.trans hk
            injection this
          rw [if_pos (by simpa using hik), if_pos (by simpa using hit)]
          simp only [Option.map_some']
          rw [hik]
        · have hik : ¬ i = k := by
            intro hc
            subst hc
            exact hit (hinj rd (List.mem_cons_self rd rest) hrd)
          rw [if_neg (by simpa using hik), if_neg (by simpa using hit)]
          rfl
    | none =>
      rw [updatesOf_cons_none E rd rest hrd]
      rw [ihr]
      have hit : ¬ canon_tax_id rd.tax_id = t := by
        intro hc
        rw [hc, hk] at hrd
        cases hrd
      cases hflr : findLast (fun rd2 => decide (canon_tax_id rd2.tax_id = t)) rest with
      | some r =>
        rw [findLast_cons_some _ rd rest r hflr]
      | none =>
        rw [findLast_cons_none _ rd rest hflr, if_neg (by simpa using hit)]

theorem appends_last (E : List (Str × Nat)) (t : Str) (ht : dlookup E t = none) :
    ∀ (records : List SheetRecord) (r : SheetRecord),
      findLast (fun rd => decide (canon_tax_id rd.tax_id = t)) records = some r →
      ∃ j, lastIdxV t ((appendsOf E (partsOf records)).map rowHead) = some j ∧
        (appendsOf E (partsOf records)).get? j = some (valuesOf r) := by
  intro records
  induction records with
  | nil => intro r hr; cases hr
  | cons rd rest ih =>
    intro r hr
    cases hrd : dlookup E (canon_tax_id rd.tax_id) with
    | some i =>
      have hit : ¬ canon_tax_id rd.tax_id = t := by
        intro hc
        rw [hc, ht] at hrd
        cases hrd
      rw [appendsOf_cons_some E rd rest i hrd]
      apply ih
      cases hflr : findLast (fun rd2 => decide (canon_tax_id rd2.tax_id = t)) rest with
      | some r2 =>
        rw [findLast_cons_some _ rd rest r2 hflr] at hr
        exact hr
      | none =>
        rw [findLast_cons_none _ rd rest hflr, if_neg (by simpa using hit)] at hr
        cases hr
    | none =>
      rw [appendsOf_cons_none E rd rest hrd]
      cases hflr : findLast (fun rd2 => decide (canon_tax_id rd2.tax_id = t)) rest with
      | some r2 =>
        rw [findLast_cons_some _ rd rest r2 hflr] at hr
        injection hr with hr
        subst hr
        obtain ⟨j, hj1, hj2⟩ := ih r2 hflr
        refine ⟨j + 1, ?_, ?_⟩
        · rw [List.map_cons]
          exact lastIdxV_cons_some t _ _ j hj1
        · simpa using hj2
      | none =>
        rw [findLast_cons_none _ rd rest hflr] at hr
        by_cases hit : canon_tax_id rd.tax_id = t
        · rw [if_pos (by simpa using hit)] at hr
          injection hr with hr
          subst hr
          refine ⟨0, ?_, rfl⟩
          have hA : lastIdxV t ((appendsOf E (partsOf rest)).map rowHead) = none := by
            apply (lastIdxV_none t _).mpr
            intro v hv
            obtain ⟨row, hrow, hveq⟩ := List.mem_map.mp hv
            obtain ⟨rd2, hrd2mem, _, hrow2⟩ := mem_appendsOf E rest row hrow
            intro hc
            have hfail := (findLast_eq_none _ rest).mp hflr rd2 hrd2mem
            apply hfail
            rw [← hveq, hrow2, canon_rowHead_valuesOf] at hc
            simpa using hc
          rw [List.map_cons]
          rw [lastIdxV_cons_none t _ _ hA]
          rw [if_pos (by rw [canon_rowHead_valuesOf]; simpa using hit)]
        · rw [if_neg (by simpa using hit)] at hr
          cases hr

theorem mem_partsOf (records : List SheetRecord) (p : Str × List Str)
    (hp : p ∈ partsOf records) :
    ∃ rd, rd ∈ records ∧ p = (canon_tax_id rd.tax_id, valuesOf rd) := by
  obtain ⟨rd, hm, he⟩ := List.mem_map.mp hp
  exact ⟨rd, hm, he.symm⟩

theorem upsert_colBody (sheet : Sheet) (records : List SheetRecord)
    (hheader : sheet ≠ []) :
    ((upsertUnchunked sheet records).map rowHead).drop 1
      = ((applyPairs sheet (updatesOf (sheet_index sheet) (partsOf records))).map
          rowHead).drop 1
        ++ (appendsOf (sheet_index sheet) (partsOf records)).map rowHead := by
  unfold upsertUnchunked
  rw [List.map_append]
  apply List.drop_append_of_le_length
  have h1 : (applyPairs sheet (updatesOf (sheet_index sheet) (partsOf records))).length
      = sheet.length := applyPairs_length _ sheet
  have h2 : sheet.length ≠ 0 := fun hc => hheader (List.eq_nil_of_length_eq_zero hc)
  simp only [List.length_map, h1]
  omega

theorem upsert_body_congr (sheet : Sheet) (records : List SheetRecord) (t : Str) :
    lastIdxV t (((applyPairs sheet (updatesOf (sheet_index sheet) (partsOf records))).map
        rowHead).drop 1)
      = lastIdxV t ((sheet.map rowHead).drop 1) := by
  apply lastIdxV_congr
  · simp [applyPairs_length]
  · intro j v w hv hw
    have hcv := updatePass_canonAt sheet records (1 + j)
    rw [List.get?_drop, List.get?_map] at hv
    rw [List.get?_drop, List.get?_map] at hw
    unfold canonAt at hcv
    cases hr1 : (applyPairs sheet (updatesOf (sheet_index sheet) (partsOf records))).get?
        (1 + j) with
    | none =>
      rw [hr1] at hv
      cases hv
    | some row1 =>
      rw [hr1] at hv hcv
      cases hr2 : sheet.get? (1 + j) with
      | none =>
        rw [hr2] at hw
        cases hw
      | some row2 =>
        rw [hr2] at hw hcv
        simp only [Option.map_some', Option.some.injEq] at hv hw hcv
        rw [← hv, ← hw]
        exact hcv

theorem upsert_lookup_content (sheet : Sheet) (records : List SheetRecord)
    (hheader : sheet ≠ []) (t : Str) (ht : t ≠ []) (r : SheetRecord)
    (hfl : findLast (fun rd => decide (canon_tax_id rd.tax_id = t)) records = some r) :
    ∃ k, dlookup (sheet_index (upsertUnchunked sheet records)) t = some k ∧
      (upsertUnchunked sheet records).get? (k - 1) = some (valuesOf r) := by
  have hPlen : (applyPairs sheet (updatesOf (sheet_index sheet) (partsOf records))).length
      = sheet.length := applyPairs_length _ sheet
  have hsl : 1 ≤ sheet.length := by
    have : sheet.length ≠ 0 := fun hc => hheader (List.eq_nil_of_length_eq_zero hc)
    omega
  have hE2 : dlookup (sheet_index (upsertUnchunked sheet records)) t
      = (lastIdxV t
          (((applyPairs sheet (updatesOf (sheet_index sheet) (partsOf records))).map
              rowHead).drop 1
            ++ (appendsOf (sheet_index sheet) (partsOf records)).map rowHead)).map
          (fun j => 2 + j) := by
    unfold sheet_index
    rw [upsert_colBody sheet records hheader]
    exact dlookup_sidx t ht _ 2
  cases hE : dlookup (sheet_index sheet) t with
  | some i =>
    have hpos := sheet_index_position sheet t i ht hE
    have hAnone : lastIdxV t
        ((appendsOf (sheet_index sheet) (partsOf records)).map rowHead) = none := by
      apply (lastIdxV_none t _).mpr
      intro v hv
      obtain ⟨row, hrow, hveq⟩ := List.mem_map.mp hv
      obtain ⟨rd2, _, hl2, hrow2⟩ := mem_appendsOf _ records row hrow
      intro hc
      rw [← hveq, hrow2, canon_rowHead_valuesOf] at hc
      rw [hc, hE] at hl2
      cases hl2
    have hEs : dlookup (sheet_index sheet) t
        = (lastIdxV t ((sheet.map rowHead).drop 1)).map (fun j => 2 + j) := by
      unfold sheet_index
      exact dlookup_sidx t ht _ 2
    rw [hEs] at hE
    cases hbody : lastIdxV t ((sheet.map rowHead).drop 1) with
    | none =>
      rw [hbody] at hE
      cases hE
    | some j0 =>
      rw [hbody] at hE
      simp only [Option.map_some', Option.some.injEq] at hE
      have hlast : lastIdxV t
          (((applyPairs sheet (updatesOf (sheet_index sheet) (partsOf records))).map
              rowHead).drop 1
            ++ (appendsOf (sheet_index sheet) (partsOf records)).map rowHead)
          = some j0 := by
        rw [lastIdxV_append_none t _ _ hAnone, upsert_body_congr sheet records t, hbody]
      refine ⟨i, ?_, ?_⟩
      · rw [hE2, hlast]
        simp only [Option.map_some', Option.some.injEq]
        omega
      · have hinj : ∀ rd ∈ records,
            dlookup (sheet_index sheet) (canon_tax_id rd.tax_id) = some i →
            canon_tax_id rd.tax_id = t := by
          intro rd2 hm2 hl2
          have htne2 : canon_tax_id rd2.tax_id ≠ [] := by
            intro hc
            rw [hc, sheet_index_nil_key] at hl2
            cases hl2
          have hpos2 := sheet_index_position sheet _ i htne2 hl2
          have h1 := hpos2.2.2
          have h2 := hpos.2.2
          rw [h1] at h2
          injection h2
        have hEi : dlookup (sheet_index sheet) t = some i := by
          rw [hEs, hbody]
          simp only [Option.map_some', Option.some.injEq]
          omega
        have hHU := findLast_updates (sheet_index sheet) t i hEi records hinj
        rw [hfl] at hHU
        simp only [Option.map_some'] at hHU
        have hHU2 : findLast (fun p => decide (p.1 = i - 1 + 1))
            (updatesOf (sheet_index sheet) (partsOf records)) = some (i, valuesOf r) := by
          rw [show i - 1 + 1 = i from by omega]
          exact hHU
        unfold upsertUnchunked
        rw [List.get?_append (by rw [hPlen]; omega)]
        rw [applyPairs_get?_some _ sheet (i - 1) (i, valuesOf r)
          (updatesOf_bound sheet records) hHU2]
        rw [if_pos (by omega)]
  | none =>
    have hEs : dlookup (sheet_index sheet) t
        = (lastIdxV t ((sheet.map rowHead).drop 1)).map (fun j => 2 + j) := by
      unfold sheet_index
      exact dlookup_sidx t ht _ 2
    rw [hEs] at hE
    have hbody : lastIdxV t ((sheet.map rowHead).drop 1) = none := by
      cases hb : lastIdxV t ((sheet.map rowHead).drop 1) with
      | none => rfl
      | some j0 =>
        rw [hb] at hE
        cases hE
    obtain ⟨jA, hjA1, hjA2⟩ := appends_last (sheet_index sheet) t
      (by rw [hEs, hbody]; rfl) records r hfl
    have hb1len : (((applyPairs sheet
        (updatesOf (sheet_index sheet) (partsOf records))).map rowHead).drop 1).length
        = sheet.length - 1 := by
      simp [hPlen]
    have hlast : lastIdxV t
        (((applyPairs sheet (updatesOf (sheet_index sheet) (partsOf records))).map
            rowHead).drop 1
          ++ (appendsOf (sheet_index sheet) (partsOf records)).map rowHead)
        = some (sheet.length - 1 + jA) := by
      rw [lastIdxV_append_some t _ _ jA hjA1, hb1len]
    refine ⟨2 + (sheet.length - 1 + jA), ?_, ?_⟩
    · rw [hE2, hlast]
      rfl
    · unfold upsertUnchunked
      rw [List.get?_append_right (by rw [hPlen]; omega)]
      rw [show 2 + (sheet.length - 1 + jA) - 1
          - (applyPairs sheet (updatesOf (sheet_index sheet) (partsOf records))).length
          = jA from by rw [hPlen]; omega]
      exact hjA2

/-- C6, counterexample: idempotence fails as universally stated — a record
whose identifier canonicalizes to the empty string is never indexed (the
index skips empty identifiers), so each application appends a fresh
duplicate row. -/
theorem batch_upsert_not_idempotent :
    batch_upsert_rows
        (batch_upsert_rows [[s2l "tax_id"]] [⟨[], []⟩]) [⟨[], []⟩]
      ≠ batch_upsert_rows [[s2l "tax_id"]] [⟨[], []⟩] := by
  rw [batch_upsert_eq_unchunked [[s2l "tax_id"]] [⟨[], []⟩] (by simp)]
  rw [batch_upsert_eq_unchunked (upsertUnchunked [[s2l "tax_id"]] [⟨[], []⟩]) [⟨[], []⟩]
    (by simp)]
  decide

/-- C6, amended: `batch_upsert` is idempotent for every list of records
whose identifiers canonicalize to non-empty identifiers, over any store
that retains its header row: applying the same records twice leaves the
rows exactly as one application does — the second application finds every
identifier in the rebuilt index and rewrites each target row in place with
the values it already holds, appending nothing. -/
theorem batch_upsert_idempotent (sheet : Sheet) (records : List SheetRecord)
    (hheader : sheet ≠ [])
    (hids : ∀ rd ∈ records, canon_tax_id rd.tax_id ≠ []) :
    batch_upsert_rows (batch_upsert_rows sheet records) records
      = batch_upsert_rows sheet records := by
  by_cases hrec : records = []
  · subst hrec
    simp [batch_upsert_rows]
  · rw [batch_upsert_eq_unchunked sheet records hrec]
    rw [batch_upsert_eq_unchunked (upsertUnchunked sheet records) records hrec]
    have hM1 : ∀ rd ∈ records,
        ∃ k r, dlookup (sheet_index (upsertUnchunked sheet records))
            (canon_tax_id rd.tax_id) = some k ∧
          findLast (fun rd2 => decide (canon_tax_id rd2.tax_id
            = canon_tax_id rd.tax_id)) records = some r ∧
          (upsertUnchunked sheet records).get? (k - 1) = some (valuesOf r) := by
      intro rd hm
      obtain ⟨r, hr⟩ := findLast_isSome_of_mem
        (fun rd2 => decide (canon_tax_id rd2.tax_id = canon_tax_id rd.tax_id))
        records rd hm (by simp)
      obtain ⟨k, hk1, hk2⟩ := upsert_lookup_content sheet records hheader
        (canon_tax_id rd.tax_id) (hids rd hm) r hr
      exact ⟨k, r, hk1, hr, hk2⟩
    have hA2 : appendsOf (sheet_index (upsertUnchunked sheet records))
        (partsOf records) = [] := by
      unfold appendsOf
      rw [List.filter_eq_nil.mpr, List.map_nil]
      intro p hp
      obtain ⟨rd, hm, hpe⟩ := mem_partsOf records p hp
      obtain ⟨k, r, hk1, _, _⟩ := hM1 rd hm
      subst hpe
      simp only [decide_eq_true_eq]
      rw [hk1]
      intro hc
      cases hc
    have hU2 : applyPairs (upsertUnchunked sheet records)
        (updatesOf (sheet_index (upsertUnchunked sheet records)) (partsOf records))
        = upsertUnchunked sheet records := by
      apply List.ext
      intro j
      have hbound2 := updatesOf_bound (upsertUnchunked sheet records) records
      cases hfl2 : findLast (fun p => decide (p.1 = j + 1))
          (updatesOf (sheet_index (upsertUnchunked sheet records)) (partsOf records)) with
      | none =>
        exact applyPairs_get?_none _ _ j hbound2 hfl2
      | some p =>
        obtain ⟨hpmem, hpq⟩ := findLast_mem _ _ p hfl2
        obtain ⟨rd0, hrd0mem, ht0ne, hrd0, hpv⟩ :=
          updatesOf_key_ne_nil (upsertUnchunked sheet records) records p hpmem
        have hp1 : p.1 = j + 1 := by simpa using hpq
        have hrd0j : dlookup (sheet_index (upsertUnchunked sheet records))
            (canon_tax_id rd0.tax_id) = some (j + 1) := by
          rw [← hp1]
          exact hrd0
        have hinj2 : ∀ rd ∈ records,
            dlookup (sheet_index (upsertUnchunked sheet records))
              (canon_tax_id rd.tax_id) = some (j + 1) →
            canon_tax_id rd.tax_id = canon_tax_id rd0.tax_id := by
          intro rd2 hm2 hl2
          have hpos2 := sheet_index_position (upsertUnchunked sheet records) _
            (j + 1) (hids rd2 hm2) hl2
          have hposT := sheet_index_position (upsertUnchunked sheet records) _
            (j + 1) ht0ne hrd0j
          have h1 := hpos2.2.2
          have h2 := hposT.2.2
          rw [h1] at h2
          exact Option.some.inj h2
        obtain ⟨k, rstar, hk1, hrstar, hk2⟩ := hM1 rd0 hrd0mem
        have hkj : k = j + 1 := by
          have := hk1.symm.trans hrd0j
          injection this
        subst hkj
        have hHU := findLast_updates (sheet_index (upsertUnchunked sheet records))
          (canon_tax_id rd0.tax_id) (j + 1) hrd0j records hinj2
        rw [hrstar] at hHU
        simp only [Option.map_some'] at hHU
        have hpeq : p = (j + 1, valuesOf rstar) := by
          have := hfl2.symm.trans hHU
          injection this
        have hS1j : (upsertUnchunked sheet records).get? j = some (valuesOf rstar) := by
          rw [show j = j + 1 - 1 from by omega]
          exact hk2
        rw [applyPairs_get?_some _ _ j p hbound2 hfl2]
        have hjlt : j < (upsertUnchunked sheet records).length := by
          rcases List.get?_eq_some.mp hS1j with ⟨hlt, _⟩
          exact hlt
        rw [if_pos hjlt, hpeq, hS1j]
    show applyPairs (upsertUnchunked sheet records)
        (updatesOf (sheet_index (upsertUnchunked sheet records)) (partsOf records))
      ++ appendsOf (sheet_index (upsertUnchunked sheet records)) (partsOf records)
      = upsertUnchunked sheet records
    rw [hA2, List.append_nil, hU2]

/-- C6, witness: the amended idempotence theorem applied to a header-only
sheet and one record with a canonical 13-digit identifier. -/
theorem batch_upsert_idempotent_witness :
    batch_upsert_rows
        (batch_upsert_rows [[s2l "tax_id"]] [⟨s2l "0135563016845", [s2l "x"]⟩])
        [⟨s2l "0135563016845", [s2l "x"]⟩]
      = batch_upsert_rows [[s2l "tax_id"]] [⟨s2l "0135563016845", [s2l "x"]⟩] :=
  batch_upsert_idempotent [[s2l "tax_id"]] [⟨s2l "0135563016845", [s2l "x"]⟩]
    (by simp) (by decide)
